import Mathlib

/-!
# lab_5.cpp : a single-server loss queue fed by a Poisson point process

Shallow embedding of `src/lab_5.cpp`.

* The global `static int y` is threaded explicitly: every function that
  draws takes the register before the call and returns the register after it.
* `int` arithmetic is arithmetic on `Int` followed by an explicit
  reduction to the 32-bit two's-complement range (`toInt32`);
  `unsigned long` arithmetic is reduced modulo `2 ^ 64` (`toULong`).
* `double` is modelled by a linearly ordered field `K` (the real numbers in
  the theorems about `log`), so rounding is not modelled.  Two places of the
  program leave the finite numbers and are modelled explicitly:
  - `log(0)` is `-∞`, so `esv` returns `+∞` on a zero draw; time points that
    are fed by `esv` therefore live in `WithTop K`;
  - the division of `UpdateValue` by a zero elapsed time has no value in `K`;
    `UpdateValue` returns `none` there.  The driver can hand `+∞` to the
    estimator, so for the driver the estimator is translated over doubles
    that may be infinite or NaN (`StreamOutIntensityExt`).
* The loop of `main` is run with a bound on the number of iterations.
* The natural logarithm is a parameter `ln : K → K` of the functions that
  use it; the theorems instantiate it with `Real.log`.
* The diagnostic lines written to `std::cerr` are not part of the model.
-/

namespace Lab5

/-! ## Machine integers -/

/-- Conversion of an integer to the 32-bit two's-complement `int`. -/
def toInt32 (z : Int) : Int := (z + 2 ^ 31) % 2 ^ 32 - 2 ^ 31

/-- Conversion of an integer to the 64-bit `unsigned long`. -/
def toULong (z : Int) : Int := z % 2 ^ 64

/-- The values an `int` can hold. -/
def IsInt32 (z : Int) : Prop := -2 ^ 31 ≤ z ∧ z < 2 ^ 31

instance (z : Int) : Decidable (IsInt32 z) := by
  unfold IsInt32; infer_instance

/-- The constant `Y_VALUE_LIMIT = (unsigned long)1 << (sizeof(y) * 8 - 1)`,
with `sizeof(y) = 4`. -/
def Y_VALUE_LIMIT : Int := toULong (toULong 1 * 2 ^ (4 * 8 - 1))

/-! ## The uniform generator -/

/-- The register part of `rnd()`: the value of `y` after the call, from the
value of `y` before it.
```
y *= 843314861;
y += 453816693;
if (y < 0) { y += Y_VALUE_LIMIT; }
```
The last assignment converts `y` to `unsigned long`, adds, and converts the
sum back to `int`. -/
def rndRegister (y : Int) : Int :=
  let y1 := toInt32 (y * 843314861)
  let y2 := toInt32 (y1 + 453816693)
  if y2 < 0 then toInt32 (toULong (toULong y2 + Y_VALUE_LIMIT)) else y2

/-- The function `rnd()`: the value returned and the register after the call.
```
return double(y) / double(Y_VALUE_LIMIT - 1);
``` -/
def rnd (K : Type) [LinearOrderedField K] (y : Int) : K × Int :=
  let y' := rndRegister y
  ((y' : K) / ((toULong (Y_VALUE_LIMIT - 1) : Int) : K), y')

/-- The register after `n` successive calls of `rnd()`. -/
def registerAfter (y : Int) : Nat → Int
  | 0 => y
  | n + 1 => rndRegister (registerAfter y n)

/-! ## The exponential sampler -/

section Sampler

variable {K : Type} [LinearOrderedField K]

/-- The function `esv(lambda)`: the value returned and the register after the
call.
```
double parameter = abs(lambda);
if (parameter == 0) { ...; parameter = 1; }
return -log(rnd()) / parameter;
```
When the draw is `0`, `log` returns `-∞` and the quotient is `+∞`
(`parameter` is finite and positive). -/
def esv (ln : K → K) (lambda : K) (y : Int) : WithTop K × Int :=
  let parameter := |lambda|
  let parameter := if parameter = 0 then 1 else parameter
  let r := rnd K y
  (if r.1 = 0 then ⊤ else ((-ln r.1 / parameter : K) : WithTop K), r.2)

/-! ## The Poisson point process -/

/-- The class `PoissonPointProcess`. -/
structure PoissonPointProcess (K : Type) where
  /-- The field `intensity`. -/
  intensity : K
  /-- The field `current_point`. -/
  current_point : WithTop K

/-- The constructor `PoissonPointProcess(lambda, start)`. -/
def PoissonPointProcess.new (lambda start : K) : PoissonPointProcess K :=
  let parameter := |lambda|
  let parameter := if parameter = 0 then 1 else parameter
  ⟨parameter, ((|start| : K) : WithTop K)⟩

/-- The method `GetNextPoint()`: the value returned, the object after the call
and the register after the call. -/
def PoissonPointProcess.GetNextPoint (ln : K → K) (p : PoissonPointProcess K)
    (y : Int) : WithTop K × PoissonPointProcess K × Int :=
  let s := esv ln p.intensity y
  let current_point := p.current_point + s.1
  (current_point, ⟨p.intensity, current_point⟩, s.2)

/-- The values returned by `n` successive calls of `GetNextPoint()`, first
call first. -/
def PoissonPointProcess.points (ln : K → K) :
    PoissonPointProcess K → Int → Nat → List (WithTop K)
  | _, _, 0 => []
  | p, y, n + 1 =>
    let r := p.GetNextPoint ln y
    r.1 :: PoissonPointProcess.points ln r.2.1 r.2.2 n

/-! ## The device -/

/-- The class `Device`. -/
structure Device (K : Type) where
  /-- The field `intensity`. -/
  intensity : K
  /-- The field `moment_of_release`. -/
  moment_of_release : WithTop K

/-- The constructor `Device(mu)`. -/
def Device.new (mu : K) : Device K :=
  let parameter := |mu|
  let parameter := if parameter = 0 then 1 else parameter
  ⟨parameter, ((0 : K) : WithTop K)⟩

/-- The method `ProceedRequest(moment)`: the value returned, the object after
the call and the register after the call. -/
def Device.ProceedRequest (ln : K → K) (d : Device K) (moment : WithTop K)
    (y : Int) : Bool × Device K × Int :=
  if moment ≥ d.moment_of_release then
    let s := esv ln d.intensity y
    (true, ⟨d.intensity, moment + s.1⟩, s.2)
  else
    (false, d, y)

/-- The method `GetMomentOfRelease()`. -/
def Device.GetMomentOfRelease (d : Device K) : WithTop K := d.moment_of_release

/-- The outcome of offering a list of moments to `ProceedRequest`, one call
per moment in the order of the list: for each call, the value returned and the
moment of release after the call. -/
def Device.offer (ln : K → K) :
    Device K → Int → List (WithTop K) → List (Bool × WithTop K)
  | _, _, [] => []
  | d, y, m :: ms =>
    let r := d.ProceedRequest ln m y
    (r.1, r.2.1.moment_of_release) :: Device.offer ln r.2.1 r.2.2 ms

/-! ## The intensity of the output stream -/

/-- The class `StreamOutIntensity`. -/
structure StreamOutIntensity (K : Type) where
  /-- The field `start_moment`. -/
  start_moment : K
  /-- The field `last_moment`. -/
  last_moment : K
  /-- The field `value`. -/
  value : K

/-- The constructor `StreamOutIntensity(start)`. -/
def StreamOutIntensity.new (start : K) : StreamOutIntensity K :=
  ⟨|start|, |start|, 0⟩

/-- The method `UpdateValue(moment)`: the object after the call.
```
double new_moment = abs(moment);
if (new_moment < last_moment) { return; }
value *= last_moment - start_moment;
value++;
last_moment = new_moment;
value /= last_moment - start_moment;
```
The result is `none` when the last division is a division by zero. -/
def StreamOutIntensity.UpdateValue (s : StreamOutIntensity K) (moment : K) :
    Option (StreamOutIntensity K) :=
  let new_moment := |moment|
  if new_moment < s.last_moment then
    some s
  else
    let value := s.value * (s.last_moment - s.start_moment)
    let value := value + 1
    let last_moment := new_moment
    if last_moment - s.start_moment = 0 then
      none
    else
      some ⟨s.start_moment, last_moment, value / (last_moment - s.start_moment)⟩

/-- The method `GetValue()`. -/
def StreamOutIntensity.GetValue (s : StreamOutIntensity K) : K := s.value

/-- The object after `UpdateValue` has been called on every moment of a list,
in the order of the list. -/
def StreamOutIntensity.updates :
    StreamOutIntensity K → List K → Option (StreamOutIntensity K)
  | s, [] => some s
  | s, m :: ms =>
    match s.UpdateValue m with
    | none => none
    | some s' => StreamOutIntensity.updates s' ms

/-- The moments `origin + k * D` for `k = 1, ..., N`, in increasing order of
`k`. -/
def evenMoments (origin D : K) (N : Nat) : List K :=
  (List.range' 1 N).map (fun (k : Nat) => origin + (k : K) * D)

/-- The linear congruential generator modulo `2 ^ 31` over the unbounded
integers: the update that the register of `rnd()` is compared with. -/
def lcgModulo (y : Int) : Int := (843314861 * y + 453816693) % 2 ^ 31

/-! ## Doubles that may be infinite

The driver hands moments of release to the estimator, and a moment of release
is `+∞` after a zero draw.  For the driver, the estimator is therefore
translated a second time over doubles that may be infinite or NaN.  The
arithmetic is the one of IEEE 754 without rounding; a zero is a positive
zero (the zero divisors of the program are differences `x - x`). -/

/-- A `double`: a finite number, `+∞`, `-∞` or a NaN. -/
inductive Double (K : Type) where
  /-- A finite number. -/
  | fin (x : K)
  /-- The value `+∞`. -/
  | pinf
  /-- The value `-∞`. -/
  | ninf
  /-- A NaN. -/
  | nan

/-- A moment in `WithTop K` as a `double`. -/
def Double.ofTop : WithTop K → Double K
  | none => Double.pinf
  | some x => Double.fin x

/-- The function `abs` on doubles. -/
def Double.abs : Double K → Double K
  | Double.fin a => Double.fin |a|
  | Double.pinf => Double.pinf
  | Double.ninf => Double.pinf
  | Double.nan => Double.nan

/-- The comparison `a < b` on doubles; it is false when a NaN is compared. -/
def Double.lt : Double K → Double K → Bool
  | Double.fin a, Double.fin b => decide (a < b)
  | Double.fin _, Double.pinf => true
  | Double.ninf, Double.fin _ => true
  | Double.ninf, Double.pinf => true
  | _, _ => false

/-- The sum `a + b` of doubles. -/
def Double.add : Double K → Double K → Double K
  | Double.fin a, Double.fin b => Double.fin (a + b)
  | Double.nan, _ => Double.nan
  | _, Double.nan => Double.nan
  | Double.pinf, Double.ninf => Double.nan
  | Double.ninf, Double.pinf => Double.nan
  | Double.pinf, _ => Double.pinf
  | _, Double.pinf => Double.pinf
  | Double.ninf, _ => Double.ninf
  | _, Double.ninf => Double.ninf

/-- The difference `a - b` of doubles. -/
def Double.sub : Double K → Double K → Double K
  | Double.fin a, Double.fin b => Double.fin (a - b)
  | Double.nan, _ => Double.nan
  | _, Double.nan => Double.nan
  | Double.pinf, Double.pinf => Double.nan
  | Double.ninf, Double.ninf => Double.nan
  | Double.pinf, _ => Double.pinf
  | _, Double.ninf => Double.pinf
  | Double.ninf, _ => Double.ninf
  | _, Double.pinf => Double.ninf

/-- The infinity with the sign of `a`, or a NaN when `a` is zero: the product
of a finite `a` and `+∞`, and the quotient of a finite `a` by zero. -/
def Double.signedInf (a : K) : Double K :=
  if 0 < a then Double.pinf else if a < 0 then Double.ninf else Double.nan

/-- The double `-a`. -/
def Double.neg : Double K → Double K
  | Double.fin a => Double.fin (-a)
  | Double.pinf => Double.ninf
  | Double.ninf => Double.pinf
  | Double.nan => Double.nan

/-- The product `a * b` of doubles. -/
def Double.mul : Double K → Double K → Double K
  | Double.fin a, Double.fin b => Double.fin (a * b)
  | Double.nan, _ => Double.nan
  | _, Double.nan => Double.nan
  | Double.fin a, Double.pinf => Double.signedInf a
  | Double.fin a, Double.ninf => (Double.signedInf a).neg
  | Double.pinf, Double.fin b => Double.signedInf b
  | Double.ninf, Double.fin b => (Double.signedInf b).neg
  | Double.pinf, Double.pinf => Double.pinf
  | Double.pinf, Double.ninf => Double.ninf
  | Double.ninf, Double.pinf => Double.ninf
  | Double.ninf, Double.ninf => Double.pinf

/-- The quotient `a / b` of doubles. -/
def Double.div : Double K → Double K → Double K
  | Double.fin a, Double.fin b => if b = 0 then Double.signedInf a else Double.fin (a / b)
  | Double.nan, _ => Double.nan
  | _, Double.nan => Double.nan
  | Double.fin _, Double.pinf => Double.fin 0
  | Double.fin _, Double.ninf => Double.fin 0
  | Double.pinf, Double.fin b => if b < 0 then Double.ninf else Double.pinf
  | Double.ninf, Double.fin b => if b < 0 then Double.pinf else Double.ninf
  | Double.pinf, Double.pinf => Double.nan
  | Double.pinf, Double.ninf => Double.nan
  | Double.ninf, Double.pinf => Double.nan
  | Double.ninf, Double.ninf => Double.nan

/-! ## The intensity of the output stream, over doubles that may be infinite -/

/-- The class `StreamOutIntensity`, with fields that may be infinite or NaN. -/
structure StreamOutIntensityExt (K : Type) where
  /-- The field `start_moment`. -/
  start_moment : Double K
  /-- The field `last_moment`. -/
  last_moment : Double K
  /-- The field `value`. -/
  value : Double K

/-- The constructor `StreamOutIntensity(start)`. -/
def StreamOutIntensityExt.new (start : Double K) : StreamOutIntensityExt K :=
  ⟨start.abs, start.abs, Double.fin 0⟩

/-- The method `UpdateValue(moment)`: the object after the call.
```
double new_moment = abs(moment);
if (new_moment < last_moment) { return; }
value *= last_moment - start_moment;
value++;
last_moment = new_moment;
value /= last_moment - start_moment;
``` -/
def StreamOutIntensityExt.UpdateValue (s : StreamOutIntensityExt K) (moment : Double K) :
    StreamOutIntensityExt K :=
  let new_moment := moment.abs
  if new_moment.lt s.last_moment then
    s
  else
    let value := s.value.mul (s.last_moment.sub s.start_moment)
    let value := value.add (Double.fin 1)
    let last_moment := new_moment
    ⟨s.start_moment, last_moment, value.div (last_moment.sub s.start_moment)⟩

/-- The method `GetValue()`. -/
def StreamOutIntensityExt.GetValue (s : StreamOutIntensityExt K) : Double K := s.value

/-- The object after `UpdateValue` has been called on every moment of a list,
in the order of the list. -/
def StreamOutIntensityExt.updates :
    StreamOutIntensityExt K → List (Double K) → StreamOutIntensityExt K
  | s, [] => s
  | s, m :: ms => StreamOutIntensityExt.updates (s.UpdateValue m) ms

/-- A state of the estimator over finite numbers, as a state over doubles. -/
def StreamOutIntensity.toExt (s : StreamOutIntensity K) : StreamOutIntensityExt K :=
  ⟨Double.fin s.start_moment, Double.fin s.last_moment, Double.fin s.value⟩

/-! ## The driver -/

/-- The local variables of `main` during its loop, and the register. -/
structure Simulation (K : Type) where
  /-- The variable `process`. -/
  process : PoissonPointProcess K
  /-- The variable `device`. -/
  device : Device K
  /-- The variable `request_out_intensity`. -/
  request_out_intensity : StreamOutIntensityExt K
  /-- The variable `moment`. -/
  moment : WithTop K
  /-- The register `y`. -/
  y : Int

/-- How `main` ends. -/
inductive Exit (K : Type) where
  /-- The statement `return 1`: nothing is printed; the register at that
  point. -/
  | status1 (y : Int)
  /-- The line printed, with `lambda`, `mu`, `T` and the value of the estimator,
  followed by `return 0`; the register at that point. -/
  | status0 (lambda mu T : K) (value : Double K) (y : Int)
  /-- The loop has not ended within the number of iterations allowed. -/
  | outOfFuel

/-- The first call `process.GetNextPoint()` of `main`, on the process
constructed from `lambda` and the start `0`. -/
def firstPoint (ln : K → K) (lambda : K) (y : Int) :
    WithTop K × PoissonPointProcess K × Int :=
  (PoissonPointProcess.new lambda 0).GetNextPoint ln y

/-- The variables of `main` when the loop is reached: the first moment has been
offered to the device constructed from `mu`, the estimator has been constructed
from the moment of release, and the next moment has been drawn. -/
def enterLoop (ln : K → K) (lambda mu : K) (y : Int) : Simulation K :=
  let p := firstPoint ln lambda y
  let d := (Device.new mu).ProceedRequest ln p.1 p.2.2
  let request_out_intensity := StreamOutIntensityExt.new (Double.ofTop d.2.1.GetMomentOfRelease)
  let q := p.2.1.GetNextPoint ln d.2.2
  ⟨q.2.1, d.2.1, request_out_intensity, q.1, q.2.2⟩

/-- The body of the loop of `main`.
```
if (device.ProceedRequest(moment)) {
    request_out_intensity.UpdateValue(device.GetMomentOfRelease());
}
moment = process.GetNextPoint();
``` -/
def loopBody (ln : K → K) (s : Simulation K) : Simulation K :=
  let d := s.device.ProceedRequest ln s.moment s.y
  let request_out_intensity :=
    if d.1 then s.request_out_intensity.UpdateValue (Double.ofTop d.2.1.GetMomentOfRelease)
    else s.request_out_intensity
  let q := s.process.GetNextPoint ln d.2.2
  ⟨q.2.1, d.2.1, request_out_intensity, q.1, q.2.2⟩

/-- The loop `while (moment < T)` of `main`, run for at most `fuel` iterations:
the variables at the exit of the loop, or `none` when the loop has not ended by
then. -/
def mainLoop (ln : K → K) (T : K) : Nat → Simulation K → Option (Simulation K)
  | 0, s => if s.moment < (T : WithTop K) then none else some s
  | fuel + 1, s =>
    if s.moment < (T : WithTop K) then mainLoop ln T fuel (loopBody ln s) else some s

/-- The function `main`, as a function of `lambda`, `mu`, `T` and the register
at the start, with at most `fuel` iterations of its loop. -/
def main (ln : K → K) (lambda mu T : K) (y : Int) (fuel : Nat) : Exit K :=
  let p := firstPoint ln lambda y
  if p.1 ≥ (T : WithTop K) then
    Exit.status1 p.2.2
  else
    match mainLoop ln T fuel (enterLoop ln lambda mu y) with
    | none => Exit.outOfFuel
    | some s => Exit.status0 lambda mu T s.request_out_intensity.GetValue s.y

/-- The variables of `main` after `n` iterations of the body of the loop. -/
def iterations (ln : K → K) (lambda mu : K) (y : Int) : Nat → Simulation K
  | 0 => enterLoop ln lambda mu y
  | n + 1 => loopBody ln (iterations ln lambda mu y n)

/-- Whether the request of the iteration that starts with the variables `s` is
accepted. -/
def Simulation.accepts (ln : K → K) (s : Simulation K) : Bool :=
  (s.device.ProceedRequest ln s.moment s.y).1

/-- The number of requests accepted in the first `n` iterations of the loop. -/
def acceptedCount (ln : K → K) (lambda mu : K) (y : Int) : Nat → Nat
  | 0 => 0
  | n + 1 =>
    acceptedCount ln lambda mu y n +
      (if (iterations ln lambda mu y n).accepts ln then 1 else 0)

end Sampler

/-! ## The uniform generator: range of the register and of the draw -/

theorem Y_VALUE_LIMIT_eq : Y_VALUE_LIMIT = 2147483648 := by decide

theorem toInt32_range (z : Int) : -2147483648 ≤ toInt32 z ∧ toInt32 z ≤ 2147483647 := by
  unfold toInt32
  omega

theorem toInt32_of_range (z : Int) (h0 : -2147483648 ≤ z) (h1 : z ≤ 2147483647) :
    toInt32 z = z := by
  unfold toInt32
  omega

/-- The conditional addition of `Y_VALUE_LIMIT`, through `unsigned long` and
back to `int`, adds `2 ^ 31` to a negative `int`. -/
theorem add_limit_of_neg (z : Int) (h0 : -2147483648 ≤ z) (h1 : z < 0) :
    toInt32 (toULong (toULong z + Y_VALUE_LIMIT)) = z + 2147483648 := by
  rw [Y_VALUE_LIMIT_eq]
  have e1 : toULong z = z + 18446744073709551616 := by
    unfold toULong
    omega
  have e2 : toULong (z + 18446744073709551616 + 2147483648) = z + 2147483648 := by
    unfold toULong
    omega
  rw [e1, e2]
  exact toInt32_of_range _ (by omega) (by omega)

theorem rndRegister_range (y : Int) :
    0 ≤ rndRegister y ∧ rndRegister y ≤ 2147483647 := by
  have h := toInt32_range (toInt32 (y * 843314861) + 453816693)
  show 0 ≤ (if toInt32 (toInt32 (y * 843314861) + 453816693) < 0 then _ else _) ∧
    (if toInt32 (toInt32 (y * 843314861) + 453816693) < 0 then _ else _) ≤ 2147483647
  generalize toInt32 (toInt32 (y * 843314861) + 453816693) = z at h
  by_cases hz : z < 0
  · rw [if_pos hz, add_limit_of_neg z h.1 hz]
    omega
  · rw [if_neg hz]
    omega

theorem rnd_snd (K : Type) [LinearOrderedField K] (y : Int) :
    (rnd K y).2 = rndRegister y := rfl

theorem rnd_fst (K : Type) [LinearOrderedField K] (y : Int) :
    (rnd K y).1 = ((rndRegister y : Int) : K) / 2147483647 := by
  have e : toULong (Y_VALUE_LIMIT - 1) = 2147483647 := by decide
  show ((rndRegister y : Int) : K) / ((toULong (Y_VALUE_LIMIT - 1) : Int) : K) = _
  rw [e]
  norm_num

theorem rnd_fst_nonneg (K : Type) [LinearOrderedField K] (y : Int) :
    0 ≤ (rnd K y).1 := by
  rw [rnd_fst]
  have h : (0 : K) ≤ ((rndRegister y : Int) : K) := by
    exact_mod_cast (rndRegister_range y).1
  positivity

theorem rnd_fst_le_one (K : Type) [LinearOrderedField K] (y : Int) :
    (rnd K y).1 ≤ 1 := by
  rw [rnd_fst, div_le_one (by norm_num)]
  exact_mod_cast (rndRegister_range y).2

theorem rnd_fst_lt_one_iff (K : Type) [LinearOrderedField K] (y : Int) :
    (rnd K y).1 < 1 ↔ rndRegister y ≠ 2147483647 := by
  rw [rnd_fst, div_lt_one (by norm_num)]
  have h := (rndRegister_range y).2
  constructor
  · intro h1 h2
    rw [h2] at h1
    norm_num at h1
  · intro h1
    have h2 : rndRegister y < 2147483647 := by omega
    exact_mod_cast h2

theorem rnd_fst_eq_zero_iff (K : Type) [LinearOrderedField K] (y : Int) :
    (rnd K y).1 = 0 ↔ rndRegister y = 0 := by
  rw [rnd_fst, div_eq_zero_iff]
  constructor
  · rintro (h | h)
    · exact_mod_cast h
    · norm_num at h
  · intro h
    left
    exact_mod_cast h

theorem rnd_fst_pos_iff (K : Type) [LinearOrderedField K] (y : Int) :
    0 < (rnd K y).1 ↔ rndRegister y ≠ 0 := by
  have e := rnd_fst_eq_zero_iff K y
  constructor
  · intro h h0
    exact absurd (e.mpr h0) (ne_of_gt h)
  · intro h
    exact lt_of_le_of_ne (rnd_fst_nonneg K y) (fun h0 => h (e.mp h0.symm))

/-! ## The exponential sampler: value and sign -/

theorem esv_snd {K : Type} [LinearOrderedField K] (ln : K → K) (lambda : K) (y : Int) :
    (esv ln lambda y).2 = rndRegister y := rfl

theorem esv_fst {K : Type} [LinearOrderedField K] (ln : K → K) (lambda : K) (y : Int) :
    (esv ln lambda y).1 =
      if (rnd K y).1 = 0 then ⊤
      else ((-ln (rnd K y).1 / (if |lambda| = 0 then 1 else |lambda|) : K) : WithTop K) := rfl

theorem esv_fst_of_zero {K : Type} [LinearOrderedField K] (ln : K → K) (lambda : K)
    (y : Int) (h : (rnd K y).1 = 0) : (esv ln lambda y).1 = ⊤ := by
  rw [esv_fst, if_pos h]

theorem esv_fst_of_ne_zero {K : Type} [LinearOrderedField K] (ln : K → K) (lambda : K)
    (y : Int) (h : (rnd K y).1 ≠ 0) :
    (esv ln lambda y).1 =
      ((-ln (rnd K y).1 / (if |lambda| = 0 then 1 else |lambda|) : K) : WithTop K) := by
  rw [esv_fst, if_neg h]

/-- The parameter that `esv` and the constructors divide by is positive. -/
theorem parameter_pos {K : Type} [LinearOrderedField K] (lambda : K) :
    0 < (if |lambda| = 0 then 1 else |lambda|) := by
  split
  · exact one_pos
  · exact lt_of_le_of_ne (abs_nonneg lambda) (Ne.symm (by assumption))

theorem parameter_eq {K : Type} [LinearOrderedField K] (lambda : K) :
    (if |lambda| = 0 then 1 else |lambda|) = if lambda = 0 then 1 else |lambda| := by
  by_cases h : lambda = 0
  · simp [h]
  · simp [h]

/-- The finite values of `esv`, with the real logarithm, are not negative. -/
theorem neg_log_div_nonneg (lambda : ℝ) (y : Int) :
    0 ≤ -Real.log (rnd ℝ y).1 / (if |lambda| = 0 then 1 else |lambda|) := by
  apply div_nonneg _ (le_of_lt (parameter_pos lambda))
  have h := Real.log_nonpos (rnd_fst_nonneg ℝ y) (rnd_fst_le_one ℝ y)
  linarith

/-- The finite values of `esv`, with the real logarithm, are positive when the
draw is neither `0` nor `1`. -/
theorem neg_log_div_pos (lambda : ℝ) (y : Int) (h0 : (rnd ℝ y).1 ≠ 0)
    (h1 : (rnd ℝ y).1 < 1) :
    0 < -Real.log (rnd ℝ y).1 / (if |lambda| = 0 then 1 else |lambda|) := by
  apply div_pos _ (parameter_pos lambda)
  have hpos : 0 < (rnd ℝ y).1 := lt_of_le_of_ne (rnd_fst_nonneg ℝ y) (Ne.symm h0)
  have h := Real.log_neg hpos h1
  linarith

theorem esv_fst_nonneg (lambda : ℝ) (y : Int) : 0 ≤ (esv Real.log lambda y).1 := by
  by_cases h : (rnd ℝ y).1 = 0
  · rw [esv_fst_of_zero _ _ _ h]
    exact le_top
  · rw [esv_fst_of_ne_zero _ _ _ h]
    exact_mod_cast neg_log_div_nonneg lambda y

/-! ## Claims about the uniform generator -/

/-- C1 as stated fails: the register value `1456176114` is a 32-bit signed
value, and the call of `rnd()` made from it updates the register to
`2 ^ 31 - 1` and returns exactly `1`, which is not below `1`. -/
theorem rnd_lt_one_fails :
    IsInt32 1456176114 ∧ (rnd ℝ 1456176114).2 = 2 ^ 31 - 1 ∧
      ¬ (0 ≤ (rnd ℝ 1456176114).1 ∧ (rnd ℝ 1456176114).1 < 1) := by
  have e : rndRegister 1456176114 = 2147483647 := by decide
  refine ⟨by decide, ?_, ?_⟩
  · rw [rnd_snd, e]
    norm_num
  · rw [rnd_fst_lt_one_iff, e]
    simp

/-- C1, amended: for every value of the register, one call of `rnd()` returns
a value `u` with `0 ≤ u ≤ 1`, where `u` is the updated register divided by
`2 ^ 31 - 1`; `u < 1` holds exactly when the updated register is not
`2 ^ 31 - 1`. -/
theorem rnd_range (K : Type) [LinearOrderedField K] (y : Int) :
    (rnd K y).1 = (((rnd K y).2 : Int) : K) / (2 ^ 31 - 1) ∧
      0 ≤ (rnd K y).1 ∧ (rnd K y).1 ≤ 1 ∧
      ((rnd K y).1 < 1 ↔ (rnd K y).2 ≠ 2 ^ 31 - 1) := by
  refine ⟨?_, rnd_fst_nonneg K y, rnd_fst_le_one K y, ?_⟩
  · rw [rnd_fst, rnd_snd]
    norm_num
  · rw [rnd_fst_lt_one_iff, rnd_snd]
    norm_num

/-- C2: whatever the register is before the call, the register after one call
of `rnd()` lies in `[0, 2 ^ 31 - 1]`, and so does the register after every
draw of a run of any length started from any register. -/
theorem register_in_range (K : Type) [LinearOrderedField K] (y : Int) :
    (0 ≤ (rnd K y).2 ∧ (rnd K y).2 ≤ 2 ^ 31 - 1) ∧
      ∀ n : Nat, 0 ≤ registerAfter y (n + 1) ∧ registerAfter y (n + 1) ≤ 2 ^ 31 - 1 := by
  constructor
  · rw [rnd_snd]
    have h := rndRegister_range y
    norm_num
    exact h
  · intro n
    have h := rndRegister_range (registerAfter y n)
    show 0 ≤ rndRegister (registerAfter y n) ∧ rndRegister (registerAfter y n) ≤ 2 ^ 31 - 1
    norm_num
    exact h

/-! ## Claims about the device -/

/-- C3: when the moment of the request is earlier than the moment of release,
`ProceedRequest` returns `false` and leaves the device (its intensity and its
moment of release) and the register of the generator as they were. -/
theorem ProceedRequest_loss {K : Type} [LinearOrderedField K] (ln : K → K)
    (d : Device K) (moment : WithTop K) (y : Int)
    (h : moment < d.moment_of_release) :
    d.ProceedRequest ln moment y = (false, d, y) := by
  unfold Device.ProceedRequest
  rw [if_neg (not_le.mpr h)]

theorem ProceedRequest_loss_witness :
    ((1 : ℚ) : WithTop ℚ) < (Device.mk (5 : ℚ) ((3 : ℚ) : WithTop ℚ)).moment_of_release ∧
      (Device.mk (5 : ℚ) ((3 : ℚ) : WithTop ℚ)).ProceedRequest (fun x => x) ((1 : ℚ) : WithTop ℚ) 7
        = (false, Device.mk (5 : ℚ) ((3 : ℚ) : WithTop ℚ), 7) :=
  ⟨by norm_num, ProceedRequest_loss _ _ _ _ (by norm_num)⟩

/-- C4 as stated fails: a fresh device with intensity `5` has its moment of
release at `0`; the request at moment `0` made when the register is
`1456176114` is accepted, the draw is `1`, the service time is
`-log 1 / 5 = 0`, and the new moment of release is `0`, which is not later than
the moment of the request. -/
theorem ProceedRequest_release_gt_fails :
    IsInt32 1456176114 ∧
      ((0 : ℝ) : WithTop ℝ) ≥ (Device.new (5 : ℝ)).moment_of_release ∧
      ((Device.new (5 : ℝ)).ProceedRequest Real.log ((0 : ℝ) : WithTop ℝ) 1456176114).1 = true ∧
      ((Device.new (5 : ℝ)).ProceedRequest Real.log
          ((0 : ℝ) : WithTop ℝ) 1456176114).2.1.moment_of_release = ((0 : ℝ) : WithTop ℝ) ∧
      ¬ (((Device.new (5 : ℝ)).ProceedRequest Real.log
          ((0 : ℝ) : WithTop ℝ) 1456176114).2.1.moment_of_release > ((0 : ℝ) : WithTop ℝ)) := by
  have e : rndRegister 1456176114 = 2147483647 := by decide
  have u1 : (rnd ℝ 1456176114).1 = 1 := by
    rw [rnd_fst, e]
    norm_num
  have hrel : (Device.new (5 : ℝ)).moment_of_release = ((0 : ℝ) : WithTop ℝ) := rfl
  have hge : ((0 : ℝ) : WithTop ℝ) ≥ (Device.new (5 : ℝ)).moment_of_release := by
    rw [hrel]
  have hs : (esv Real.log (Device.new (5 : ℝ)).intensity 1456176114).1 = ((0 : ℝ) : WithTop ℝ) := by
    rw [esv_fst_of_ne_zero _ _ _ (by rw [u1]; norm_num), u1]
    simp
  have hres : ((Device.new (5 : ℝ)).ProceedRequest Real.log
      ((0 : ℝ) : WithTop ℝ) 1456176114).2.1.moment_of_release = ((0 : ℝ) : WithTop ℝ) := by
    unfold Device.ProceedRequest
    rw [if_pos hge]
    show ((0 : ℝ) : WithTop ℝ) + (esv Real.log (Device.new (5 : ℝ)).intensity 1456176114).1 = _
    rw [hs]
    simp
  refine ⟨by decide, hge, ?_, hres, ?_⟩
  · unfold Device.ProceedRequest
    rw [if_pos hge]
  · rw [hres]
    exact lt_irrefl _

/-- C4, amended: for every device, every register and every moment, finite or
`+∞`, that is not earlier than the moment of release, `ProceedRequest` returns
`true`, one draw is consumed, and the new moment of release is not earlier
than the moment of the request; without rounding, it is strictly later exactly
when the moment of the request is finite and the draw is not `1`, that is,
when the updated register is not `2 ^ 31 - 1`. -/
theorem ProceedRequest_admission (d : Device ℝ) (moment : WithTop ℝ) (y : Int)
    (h : moment ≥ d.moment_of_release) :
    (d.ProceedRequest Real.log moment y).1 = true ∧
      (d.ProceedRequest Real.log moment y).2.2 = (rnd ℝ y).2 ∧
      (d.ProceedRequest Real.log moment y).2.1.moment_of_release ≥ moment ∧
      ((d.ProceedRequest Real.log moment y).2.1.moment_of_release > moment
        ↔ moment ≠ ⊤ ∧ (rnd ℝ y).2 ≠ 2 ^ 31 - 1) := by
  have hres : d.ProceedRequest Real.log moment y
      = (true, ⟨d.intensity, moment + (esv Real.log d.intensity y).1⟩,
          (esv Real.log d.intensity y).2) := by
    unfold Device.ProceedRequest
    rw [if_pos h]
  rw [hres]
  refine ⟨rfl, rfl, ?_, ?_⟩
  · exact le_add_of_nonneg_right (esv_fst_nonneg d.intensity y)
  · show moment < moment + (esv Real.log d.intensity y).1 ↔ _
    have hlt := rnd_fst_lt_one_iff ℝ y
    rw [rnd_snd]
    cases moment with
    | top =>
      rw [WithTop.top_add]
      constructor
      · intro hc
        exact absurd hc (lt_irrefl _)
      · intro hc
        exact absurd rfl hc.1
    | coe m =>
      have hm : ((m : ℝ) : WithTop ℝ) ≠ ⊤ := WithTop.coe_ne_top
      by_cases h0 : (rnd ℝ y).1 = 0
      · rw [esv_fst_of_zero _ _ _ h0, WithTop.add_top]
        have hr : rndRegister y = 0 := (rnd_fst_eq_zero_iff ℝ y).mp h0
        constructor
        · intro _
          refine ⟨hm, ?_⟩
          rw [hr]
          norm_num
        · intro _
          exact WithTop.coe_lt_top m
      · rw [esv_fst_of_ne_zero _ _ _ h0, ← WithTop.coe_add, WithTop.coe_lt_coe]
        constructor
        · intro hpos
          refine ⟨hm, ?_⟩
          intro hreg
          have hreg2 : rndRegister y = 2147483647 := by
            rw [hreg]
            norm_num
          have u1 : (rnd ℝ y).1 = 1 := by
            rw [rnd_fst, hreg2]
            norm_num
          rw [u1] at hpos
          simp at hpos
        · intro hreg
          have hreg2 : rndRegister y ≠ 2147483647 := by
            intro hc
            apply hreg.2
            rw [hc]
            norm_num
          have := neg_log_div_pos d.intensity y h0 (hlt.mpr hreg2)
          linarith

theorem ProceedRequest_admission_witness :
    ((2 : ℝ) : WithTop ℝ) ≥ (Device.mk (5 : ℝ) ((1 : ℝ) : WithTop ℝ)).moment_of_release ∧
      ((Device.mk (5 : ℝ) ((1 : ℝ) : WithTop ℝ)).ProceedRequest Real.log
          ((2 : ℝ) : WithTop ℝ) 0).1 = true ∧
      ((Device.mk (5 : ℝ) ((1 : ℝ) : WithTop ℝ)).ProceedRequest Real.log
          ((2 : ℝ) : WithTop ℝ) 0).2.1.moment_of_release ≥ ((2 : ℝ) : WithTop ℝ) :=
  ⟨by norm_num,
    (ProceedRequest_admission (Device.mk (5 : ℝ) ((1 : ℝ) : WithTop ℝ))
      ((2 : ℝ) : WithTop ℝ) 0 (by norm_num)).1,
    (ProceedRequest_admission (Device.mk (5 : ℝ) ((1 : ℝ) : WithTop ℝ))
      ((2 : ℝ) : WithTop ℝ) 0 (by norm_num)).2.2.1⟩

/-- One call of `ProceedRequest`, whatever the device, the moment and the
register: the moment of release does not decrease, and it is unchanged when
the request is rejected. -/
theorem ProceedRequest_release_mono (d : Device ℝ) (moment : WithTop ℝ) (y : Int) :
    d.moment_of_release ≤ (d.ProceedRequest Real.log moment y).2.1.moment_of_release ∧
      ((d.ProceedRequest Real.log moment y).1 = false →
        (d.ProceedRequest Real.log moment y).2.1.moment_of_release = d.moment_of_release) := by
  unfold Device.ProceedRequest
  by_cases h : moment ≥ d.moment_of_release
  · rw [if_pos h]
    constructor
    · exact le_trans h (le_add_of_nonneg_right (esv_fst_nonneg d.intensity y))
    · intro hc
      exact absurd hc (by simp)
  · rw [if_neg h]
    exact ⟨le_refl _, fun _ => rfl⟩

/-- C5: for every device (every intensity and every moment of release), every
register and every list of moments offered to `ProceedRequest` in the order of
the list, the moment of release after each call is not earlier than the one
before the call, and it is the same when the call returned `false`. -/
theorem release_time_nondecreasing (d : Device ℝ) (y : Int) (ms : List (WithTop ℝ)) :
    List.Chain (fun a b => a.2 ≤ b.2 ∧ (b.1 = false → b.2 = a.2))
      (true, d.moment_of_release) (d.offer Real.log y ms) := by
  induction ms generalizing d y with
  | nil => exact List.Chain.nil
  | cons m ms ih =>
    show List.Chain _ _
      (((d.ProceedRequest Real.log m y).1,
          (d.ProceedRequest Real.log m y).2.1.moment_of_release) ::
        Device.offer Real.log (d.ProceedRequest Real.log m y).2.1
          (d.ProceedRequest Real.log m y).2.2 ms)
    refine List.Chain.cons (ProceedRequest_release_mono d m y) ?_
    have h := ih (d.ProceedRequest Real.log m y).2.1 (d.ProceedRequest Real.log m y).2.2
    cases ms with
    | nil => exact List.Chain.nil
    | cons m2 ms2 =>
      cases h with
      | cons h1 h2 => exact List.Chain.cons h1 h2

/-! ## Claims about the Poisson point process -/

/-- One call of `GetNextPoint`: the value returned is the new current point,
and it is not earlier than the current point before the call. -/
theorem GetNextPoint_mono (p : PoissonPointProcess ℝ) (y : Int) :
    (p.GetNextPoint Real.log y).1 = (p.GetNextPoint Real.log y).2.1.current_point ∧
      p.current_point ≤ (p.GetNextPoint Real.log y).1 :=
  ⟨rfl, le_add_of_nonneg_right (esv_fst_nonneg p.intensity y)⟩

theorem points_chain (p : PoissonPointProcess ℝ) (y : Int) (n : Nat) :
    List.Chain (fun a b => a ≤ b) p.current_point (p.points Real.log y n) := by
  induction n generalizing p y with
  | zero => exact List.Chain.nil
  | succ n ih =>
    show List.Chain _ _ ((p.GetNextPoint Real.log y).1 ::
      PoissonPointProcess.points Real.log (p.GetNextPoint Real.log y).2.1
        (p.GetNextPoint Real.log y).2.2 n)
    refine List.Chain.cons (GetNextPoint_mono p y).2 ?_
    have h := ih (p.GetNextPoint Real.log y).2.1 (p.GetNextPoint Real.log y).2.2
    rw [← (GetNextPoint_mono p y).1] at h
    exact h

theorem points_length {K : Type} [LinearOrderedField K] (ln : K → K)
    (p : PoissonPointProcess K) (y : Int) (n : Nat) :
    (p.points ln y n).length = n := by
  induction n generalizing p y with
  | zero => rfl
  | succ n ih =>
    show (PoissonPointProcess.points ln (p.GetNextPoint ln y).2.1
      (p.GetNextPoint ln y).2.2 n).length + 1 = n + 1
    rw [ih]

/-- C6: for every `lambda`, every `start`, every register and every number `n`
of calls, the `n` values returned by successive calls of `GetNextPoint` on the
process constructed from `lambda` and `start` form a chain in which the first
value is at least `|start|` and every later value is at least the previous
one. -/
theorem arrival_monotone (lambda start : ℝ) (y : Int) (n : Nat) :
    ((PoissonPointProcess.new lambda start).points Real.log y n).length = n ∧
      List.Chain (fun a b => a ≤ b) ((|start| : ℝ) : WithTop ℝ)
        ((PoissonPointProcess.new lambda start).points Real.log y n) :=
  ⟨points_length _ _ _ _, points_chain (PoissonPointProcess.new lambda start) y n⟩

/-! ## Claims about the exponential sampler -/

/-- C7, the program at the register `1093556503`: the draw made by `esv` is
`0`, the logarithm is taken at `0`, and the value returned by `esv(1)` is `+∞`;
it is not a real number, so it is not a non-negative real equal to
`-ln u / r`. -/
theorem esv_real_fails :
    IsInt32 1093556503 ∧ (rnd ℝ 1093556503).1 = 0 ∧
      (esv Real.log 1 1093556503).1 = ⊤ ∧
      ¬ ∃ v : ℝ, (esv Real.log 1 1093556503).1 = (v : WithTop ℝ) ∧ 0 ≤ v ∧
          v = -Real.log (rnd ℝ 1093556503).1 / (if (1 : ℝ) = 0 then 1 else |(1 : ℝ)|) := by
  have e : rndRegister 1093556503 = 0 := by decide
  have u0 : (rnd ℝ 1093556503).1 = 0 := (rnd_fst_eq_zero_iff ℝ _).mpr e
  refine ⟨by decide, u0, esv_fst_of_zero _ _ _ u0, ?_⟩
  rintro ⟨v, hv, _⟩
  rw [esv_fst_of_zero _ _ _ u0] at hv
  exact WithTop.top_ne_coe hv

/-- Where the sampler is right: for every rate and every register from which
the draw `u` of `rnd()` is not `0`, `esv(rate)` returns a real number that is
not negative and equals `-ln u / r`, where `r` is `|rate|`, or `1` when `rate`
is `0`; the call consumes that one draw. -/
theorem esv_value (rate : ℝ) (y : Int) (h : (rnd ℝ y).1 ≠ 0) :
    (esv Real.log rate y).2 = (rnd ℝ y).2 ∧
      ∃ v : ℝ, (esv Real.log rate y).1 = (v : WithTop ℝ) ∧ 0 ≤ v ∧
        v = -Real.log (rnd ℝ y).1 / (if rate = 0 then 1 else |rate|) := by
  refine ⟨rfl, -Real.log (rnd ℝ y).1 / (if |rate| = 0 then 1 else |rate|), ?_, ?_, ?_⟩
  · exact esv_fst_of_ne_zero _ _ _ h
  · exact neg_log_div_nonneg rate y
  · rw [parameter_eq]

theorem esv_value_witness :
    (rnd ℝ 0).1 ≠ 0 ∧
      ∃ v : ℝ, (esv Real.log 2 0).1 = (v : WithTop ℝ) ∧ 0 ≤ v ∧
        v = -Real.log (rnd ℝ 0).1 / (if (2 : ℝ) = 0 then 1 else |(2 : ℝ)|) :=
  have h : (rnd ℝ 0).1 ≠ 0 := by
    rw [Ne, rnd_fst_eq_zero_iff]
    decide
  ⟨h, (esv_value 2 0 h).2⟩

/-! ## Claims about the estimator of the output intensity -/

/-- C8 as stated fails: after construction at `0` and one update at `3` the
estimator has `last_moment = 3`; the update at `-5` has `-5 < 3`, but it is not
a no-op: the absolute value `5` is taken, and `last_moment` becomes `5` and
`value` becomes `2 / 5`. -/
theorem UpdateValue_noop_fails :
    (StreamOutIntensity.new (0 : ℝ)).UpdateValue 3 = some ⟨0, 3, 1 / 3⟩ ∧
      (-5 : ℝ) < (StreamOutIntensity.mk (0 : ℝ) 3 (1 / 3)).last_moment ∧
      (StreamOutIntensity.mk (0 : ℝ) 3 (1 / 3)).UpdateValue (-5) = some ⟨0, 5, 2 / 5⟩ ∧
      (StreamOutIntensity.mk (0 : ℝ) 3 (1 / 3)).UpdateValue (-5)
        ≠ some (StreamOutIntensity.mk (0 : ℝ) 3 (1 / 3)) := by
  have e2 : (StreamOutIntensity.mk (0 : ℝ) 3 (1 / 3)).UpdateValue (-5) = some ⟨0, 5, 2 / 5⟩ := by
    simp only [StreamOutIntensity.UpdateValue]
    norm_num
  refine ⟨?_, ?_, e2, ?_⟩
  · simp only [StreamOutIntensity.UpdateValue, StreamOutIntensity.new]
    norm_num
  · norm_num
  · rw [e2]
    intro h
    have h2 := congrArg (fun o => o.map StreamOutIntensity.last_moment) h
    norm_num at h2

/-- C8, amended: for every state of the estimator and every moment whose
absolute value is less than `last_moment`, `UpdateValue` is a no-op:
`start_moment`, `last_moment` and `value` are unchanged. -/
theorem UpdateValue_noop {K : Type} [LinearOrderedField K] (s : StreamOutIntensity K)
    (moment : K) (h : |moment| < s.last_moment) :
    s.UpdateValue moment = some s := by
  unfold StreamOutIntensity.UpdateValue
  simp only
  rw [if_pos h]

theorem UpdateValue_noop_witness :
    |(-2 : ℚ)| < (StreamOutIntensity.mk (0 : ℚ) 3 (1 / 3)).last_moment ∧
      (StreamOutIntensity.mk (0 : ℚ) 3 (1 / 3)).UpdateValue (-2)
        = some (StreamOutIntensity.mk (0 : ℚ) 3 (1 / 3)) :=
  ⟨by norm_num [abs_of_neg], UpdateValue_noop _ _ (by norm_num [abs_of_neg])⟩

/-- One update at the next evenly spaced moment: from a state whose elapsed
time is `k * D` and whose implicit count is `k`, the update at
`origin + (k + 1) * D` is defined and leads to elapsed time `(k + 1) * D` and
implicit count `k + 1`. -/
theorem UpdateValue_even_step {K : Type} [LinearOrderedField K] (origin D : K)
    (h0 : 0 ≤ origin) (hD : 0 < D) (k : Nat) (s : StreamOutIntensity K)
    (hs : s.start_moment = origin) (hl : s.last_moment = origin + (k : K) * D)
    (hv : s.value * ((k : K) * D) = (k : K)) :
    ∃ s', s.UpdateValue (origin + ((k + 1 : Nat) : K) * D) = some s' ∧
      s'.start_moment = origin ∧ s'.last_moment = origin + ((k + 1 : Nat) : K) * D ∧
      s'.value * (((k + 1 : Nat) : K) * D) = ((k + 1 : Nat) : K) := by
  have hk : (0 : K) ≤ (k : K) := Nat.cast_nonneg k
  have hk1 : (0 : K) < ((k + 1 : Nat) : K) := by
    exact_mod_cast Nat.succ_pos k
  have hpos : 0 < ((k + 1 : Nat) : K) * D := mul_pos hk1 hD
  have habs : |origin + ((k + 1 : Nat) : K) * D| = origin + ((k + 1 : Nat) : K) * D :=
    abs_of_nonneg (by linarith)
  have hnlt : ¬ (origin + ((k + 1 : Nat) : K) * D < s.last_moment) := by
    rw [hl, not_lt]
    have : ((k + 1 : Nat) : K) * D = (k : K) * D + D := by
      push_cast
      ring
    linarith
  have hdiv : origin + ((k + 1 : Nat) : K) * D - s.start_moment = ((k + 1 : Nat) : K) * D := by
    rw [hs]
    ring
  have hne : origin + ((k + 1 : Nat) : K) * D - s.start_moment ≠ 0 := by
    rw [hdiv]
    exact ne_of_gt hpos
  refine ⟨⟨s.start_moment, origin + ((k + 1 : Nat) : K) * D,
    (s.value * (s.last_moment - s.start_moment) + 1) /
      (origin + ((k + 1 : Nat) : K) * D - s.start_moment)⟩, ?_, hs, rfl, ?_⟩
  · unfold StreamOutIntensity.UpdateValue
    simp only
    rw [habs, if_neg hnlt, if_neg hne]
  · show (s.value * (s.last_moment - s.start_moment) + 1) /
      (origin + ((k + 1 : Nat) : K) * D - s.start_moment) * (((k + 1 : Nat) : K) * D) = _
    rw [hdiv, div_mul_cancel₀ _ (ne_of_gt hpos), hl, hs]
    have : origin + (k : K) * D - origin = (k : K) * D := by ring
    rw [this, hv]
    push_cast
    ring

theorem updates_even {K : Type} [LinearOrderedField K] (origin D : K)
    (h0 : 0 ≤ origin) (hD : 0 < D) (n k : Nat) (s : StreamOutIntensity K)
    (hs : s.start_moment = origin) (hl : s.last_moment = origin + (k : K) * D)
    (hv : s.value * ((k : K) * D) = (k : K)) :
    ∃ s', s.updates ((List.range' (k + 1) n).map (fun (j : Nat) => origin + (j : K) * D)) = some s' ∧
      s'.start_moment = origin ∧ s'.last_moment = origin + ((k + n : Nat) : K) * D ∧
      s'.value * (((k + n : Nat) : K) * D) = ((k + n : Nat) : K) := by
  induction n generalizing k s with
  | zero => exact ⟨s, rfl, hs, hl, hv⟩
  | succ n ih =>
    obtain ⟨s1, e1, hs1, hl1, hv1⟩ := UpdateValue_even_step origin D h0 hD k s hs hl hv
    obtain ⟨s2, e2, hs2, hl2, hv2⟩ := ih (k + 1) s1 hs1 hl1 hv1
    refine ⟨s2, ?_, hs2, ?_, ?_⟩
    · rw [List.range'_succ, List.map_cons]
      show (match s.UpdateValue (origin + ((k + 1 : Nat) : K) * D) with
        | none => none
        | some s' => StreamOutIntensity.updates s' _) = some s2
      rw [e1]
      exact e2
    · rw [hl2]
      congr 3
      omega
    · have e : k + 1 + n = k + (n + 1) := by omega
      rw [e] at hv2
      exact hv2

/-- C9: for every `origin ≥ 0`, every step `D > 0` and every `N ≥ 1`, the
estimator constructed at `origin` and updated at `origin + k * D` for
`k = 1, ..., N` in this order is defined after the `N` updates, and
`GetValue()` then returns `N / (N * D)`, which is `1 / D`. -/
theorem estimator_even_moments {K : Type} [LinearOrderedField K] (origin D : K) (N : Nat)
    (h0 : 0 ≤ origin) (hD : 0 < D) (hN : 1 ≤ N) :
    ∃ s, (StreamOutIntensity.new origin).updates (evenMoments origin D N) = some s ∧
      s.GetValue = (N : K) / ((N : K) * D) ∧ s.GetValue = 1 / D := by
  have hnew : StreamOutIntensity.new origin = ⟨origin, origin, 0⟩ := by
    unfold StreamOutIntensity.new
    rw [abs_of_nonneg h0]
  obtain ⟨s, e, _, _, hv⟩ := updates_even origin D h0 hD N 0 (StreamOutIntensity.new origin)
    (by rw [hnew]) (by rw [hnew]; simp) (by rw [hnew]; simp)
  have hNpos : (0 : K) < (N : K) := by
    exact_mod_cast hN
  have hND : (N : K) * D ≠ 0 := ne_of_gt (mul_pos hNpos hD)
  rw [Nat.zero_add] at hv
  have hval : s.value = (N : K) / ((N : K) * D) := by
    rw [eq_div_iff hND]
    exact hv
  refine ⟨s, ?_, hval, ?_⟩
  · rw [Nat.zero_add] at e
    exact e
  · show s.value = 1 / D
    rw [hval]
    field_simp

theorem estimator_even_moments_witness :
    (0 : ℚ) ≤ 2 ∧ (0 : ℚ) < 1 / 2 ∧ 1 ≤ 3 ∧
      ∃ s, (StreamOutIntensity.new (2 : ℚ)).updates (evenMoments (2 : ℚ) (1 / 2) 3) = some s ∧
        s.GetValue = (3 : ℚ) / ((3 : ℚ) * (1 / 2)) ∧ s.GetValue = 1 / (1 / 2) :=
  ⟨by norm_num, by norm_num, by norm_num,
    estimator_even_moments (2 : ℚ) (1 / 2) 3 (by norm_num) (by norm_num) (by norm_num)⟩

/-- One defined call of `UpdateValue` from a state with
`start_moment ≤ last_moment` and `0 ≤ value`: `start_moment` is unchanged,
`last_moment` does not decrease and stays at least `start_moment`, and `value`
stays non-negative. -/
theorem UpdateValue_preserves {K : Type} [LinearOrderedField K]
    (s s' : StreamOutIntensity K) (m : K) (hl : s.start_moment ≤ s.last_moment)
    (hv : 0 ≤ s.value) (h : s.UpdateValue m = some s') :
    s'.start_moment = s.start_moment ∧ s'.start_moment ≤ s'.last_moment ∧
      s.last_moment ≤ s'.last_moment ∧ 0 ≤ s'.value := by
  unfold StreamOutIntensity.UpdateValue at h
  simp only at h
  by_cases h1 : |m| < s.last_moment
  · rw [if_pos h1] at h
    have e : s = s' := Option.some.inj h
    subst e
    exact ⟨rfl, hl, le_refl _, hv⟩
  · rw [if_neg h1] at h
    by_cases h2 : |m| - s.start_moment = 0
    · rw [if_pos h2] at h
      exact absurd h (by simp)
    · rw [if_neg h2] at h
      have e := Option.some.inj h
      subst e
      have hge : s.last_moment ≤ |m| := not_lt.mp h1
      refine ⟨rfl, le_trans hl hge, hge, ?_⟩
      show 0 ≤ (s.value * (s.last_moment - s.start_moment) + 1) / (|m| - s.start_moment)
      apply div_nonneg
      · have : 0 ≤ s.value * (s.last_moment - s.start_moment) :=
          mul_nonneg hv (by linarith)
        linarith
      · linarith

theorem updates_cons {K : Type} [LinearOrderedField K] (s : StreamOutIntensity K)
    (m : K) (ms : List K) :
    s.updates (m :: ms) = (s.UpdateValue m).bind (fun s' => s'.updates ms) := by
  show (match s.UpdateValue m with
    | none => none
    | some s' => StreamOutIntensity.updates s' ms) = _
  cases s.UpdateValue m <;> rfl

/-- A run of updates that is defined is defined after each of its calls, and
each call preserves what `UpdateValue_preserves` lists. -/
theorem updates_preserves {K : Type} [LinearOrderedField K] (ms : List K)
    (s0 : StreamOutIntensity K) (hl : s0.start_moment ≤ s0.last_moment)
    (hv : 0 ≤ s0.value) (h : s0.updates ms ≠ none) (k : Nat) (hk : k < ms.length) :
    ∃ s s', s0.updates (ms.take k) = some s ∧ s0.updates (ms.take (k + 1)) = some s' ∧
      s'.start_moment = s0.start_moment ∧ s'.start_moment ≤ s'.last_moment ∧
      s.last_moment ≤ s'.last_moment ∧ 0 ≤ s'.value := by
  induction ms generalizing s0 k with
  | nil => exact absurd hk (by simp)
  | cons m ms ih =>
    rw [updates_cons] at h
    cases e1 : s0.UpdateValue m with
    | none =>
      rw [e1] at h
      exact absurd rfl h
    | some s1 =>
      rw [e1] at h
      have p1 := UpdateValue_preserves s0 s1 m hl hv e1
      cases k with
      | zero =>
        refine ⟨s0, s1, rfl, ?_, p1.1, p1.2.1, p1.2.2.1, p1.2.2.2⟩
        show s0.updates (m :: List.take 0 ms) = some s1
        rw [updates_cons, e1]
        rfl
      | succ k =>
        have hk2 : k < ms.length := by
          simpa using hk
        obtain ⟨s, s', e2, e3, q1, q2, q3, q4⟩ :=
          ih s1 p1.2.1 p1.2.2.2 h k hk2
        refine ⟨s, s', ?_, ?_, by rw [q1, p1.1], q2, q3, q4⟩
        · show s0.updates (m :: List.take k ms) = some s
          rw [updates_cons, e1]
          exact e2
        · show s0.updates (m :: List.take (k + 1) ms) = some s'
          rw [updates_cons, e1]
          exact e3

/-- No call of a run divides by zero when no moment of the run has the absolute
value of the first moment. -/
theorem updates_defined {K : Type} [LinearOrderedField K] (ms : List K)
    (s0 : StreamOutIntensity K) (hl : s0.start_moment ≤ s0.last_moment)
    (hv : 0 ≤ s0.value) (h : ∀ m ∈ ms, |m| ≠ s0.start_moment) :
    s0.updates ms ≠ none := by
  induction ms generalizing s0 with
  | nil => simp [StreamOutIntensity.updates]
  | cons m ms ih =>
    have hm : |m| ≠ s0.start_moment := h m (List.mem_cons_self m ms)
    have hdef : ∃ s1, s0.UpdateValue m = some s1 := by
      unfold StreamOutIntensity.UpdateValue
      simp only
      by_cases h1 : |m| < s0.last_moment
      · exact ⟨s0, by rw [if_pos h1]⟩
      · rw [if_neg h1, if_neg (sub_ne_zero.mpr hm)]
        exact ⟨_, rfl⟩
    obtain ⟨s1, e1⟩ := hdef
    have p1 := UpdateValue_preserves s0 s1 m hl hv e1
    rw [updates_cons, e1]
    apply ih s1 p1.2.1 p1.2.2.2
    intro m2 hm2
    rw [p1.1]
    exact h m2 (List.mem_cons_of_mem m hm2)

/-- One call of `UpdateValue` on doubles, from a state with finite moments
`start_moment ≤ last_moment` and at a finite moment: `start_moment` is
unchanged, and `last_moment` stays finite, does not decrease and stays at least
`start_moment`, whatever the value is. -/
theorem UpdateValueExt_moments {K : Type} [LinearOrderedField K]
    (s : StreamOutIntensityExt K) (a b m : K) (hs : s.start_moment = Double.fin a)
    (hl : s.last_moment = Double.fin b) (hab : a ≤ b) :
    (s.UpdateValue (Double.fin m)).start_moment = Double.fin a ∧
      ∃ b', (s.UpdateValue (Double.fin m)).last_moment = Double.fin b' ∧ b ≤ b' ∧ a ≤ b' := by
  have hext : s.UpdateValue (Double.fin m)
      = if (Double.fin |m|).lt s.last_moment = true then s
        else ⟨s.start_moment, Double.fin |m|,
          ((s.value.mul (s.last_moment.sub s.start_moment)).add (Double.fin 1)).div
            ((Double.fin |m|).sub s.start_moment)⟩ := rfl
  rw [hext, hl]
  have hlt : (Double.fin |m|).lt (Double.fin b) = decide (|m| < b) := rfl
  rw [hlt]
  by_cases h1 : |m| < b
  · rw [if_pos (decide_eq_true h1)]
    exact ⟨hs, b, hl, le_refl b, hab⟩
  · rw [if_neg (by simpa using h1)]
    have hge : b ≤ |m| := not_lt.mp h1
    exact ⟨hs, |m|, rfl, hge, le_trans hab hge⟩

/-- The moments of the estimator, whatever its value does: for every first
moment and every list of finite moments passed to `UpdateValue`, also when a
call divides by zero, before and after each call `start_moment` is the one of
construction, and `last_moment` is finite, at least `start_moment` and at
least its value before the call. -/
theorem updatesExt_moments {K : Type} [LinearOrderedField K] (ms : List K)
    (s0 : StreamOutIntensityExt K) (a b0 : K) (hs : s0.start_moment = Double.fin a)
    (hl : s0.last_moment = Double.fin b0) (hab : a ≤ b0) (k : Nat) (hk : k < ms.length) :
    ∃ b b', (s0.updates ((ms.take k).map Double.fin)).last_moment = Double.fin b ∧
      (s0.updates ((ms.take (k + 1)).map Double.fin)).last_moment = Double.fin b' ∧
      (s0.updates ((ms.take (k + 1)).map Double.fin)).start_moment = Double.fin a ∧
      a ≤ b' ∧ b ≤ b' := by
  induction ms generalizing s0 b0 k with
  | nil => exact absurd hk (by simp)
  | cons m ms ih =>
    obtain ⟨h1, b1, h2, h3, h4⟩ := UpdateValueExt_moments s0 a b0 m hs hl hab
    cases k with
    | zero => exact ⟨b0, b1, hl, h2, h1, h4, h3⟩
    | succ k =>
      have hk2 : k < ms.length := by
        simpa using hk
      exact ih (s0.UpdateValue (Double.fin m)) b1 h1 h2 h4 k hk2

theorem estimatorExt_moments {K : Type} [LinearOrderedField K] (first : K) (ms : List K)
    (k : Nat) (hk : k < ms.length) :
    ∃ b b',
      ((StreamOutIntensityExt.new (Double.fin first)).updates
          ((ms.take k).map Double.fin)).last_moment = Double.fin b ∧
      ((StreamOutIntensityExt.new (Double.fin first)).updates
          ((ms.take (k + 1)).map Double.fin)).last_moment = Double.fin b' ∧
      ((StreamOutIntensityExt.new (Double.fin first)).updates
          ((ms.take (k + 1)).map Double.fin)).start_moment = Double.fin |first| ∧
      |first| ≤ b' ∧ b ≤ b' :=
  updatesExt_moments ms (StreamOutIntensityExt.new (Double.fin first)) |first| |first|
    rfl rfl (le_refl _) k hk

/-- C10, the program on the estimator constructed at `0` and updated at `0` and
then at `1`: `start_moment` stays `0` and `last_moment` is `0` and then `1`, but
the first call divides `1` by the elapsed time `0` and stores `+∞`, and the
second call multiplies that by the elapsed time `0` and stores a NaN, which is
not `≥ 0`.  Over the real numbers the first call has no result. -/
theorem estimator_invariant_fails :
    (StreamOutIntensity.new (0 : ℝ)).UpdateValue 0 = none ∧
      (¬ ∃ s, (StreamOutIntensity.new (0 : ℝ)).updates [0, 1] = some s ∧
          s.start_moment = (StreamOutIntensity.new (0 : ℝ)).start_moment ∧
          s.start_moment ≤ s.last_moment ∧ 0 ≤ s.value) ∧
      (StreamOutIntensityExt.new (Double.fin (0 : ℝ))).updates [Double.fin 0]
        = ⟨Double.fin 0, Double.fin 0, Double.pinf⟩ ∧
      (StreamOutIntensityExt.new (Double.fin (0 : ℝ))).updates [Double.fin 0, Double.fin 1]
        = ⟨Double.fin 0, Double.fin 1, Double.nan⟩ ∧
      (Double.fin (0 : ℝ)).lt Double.nan = false ∧
      Double.nan ≠ Double.fin (0 : ℝ) := by
  have e : (StreamOutIntensity.new (0 : ℝ)).UpdateValue 0 = none := by
    simp [StreamOutIntensity.UpdateValue, StreamOutIntensity.new]
  have e1 : (StreamOutIntensityExt.new (Double.fin (0 : ℝ))).UpdateValue (Double.fin 0)
      = ⟨Double.fin 0, Double.fin 0, Double.pinf⟩ := by
    simp [StreamOutIntensityExt.new, StreamOutIntensityExt.UpdateValue, Double.abs, Double.lt,
      Double.sub, Double.mul, Double.add, Double.div, Double.signedInf]
  have e2 : (StreamOutIntensityExt.mk (Double.fin (0 : ℝ)) (Double.fin 0)
      Double.pinf).UpdateValue (Double.fin 1) = ⟨Double.fin 0, Double.fin 1, Double.nan⟩ := by
    simp [StreamOutIntensityExt.UpdateValue, Double.abs, Double.lt,
      Double.sub, Double.mul, Double.add, Double.div, Double.signedInf]
  refine ⟨e, ?_, ?_, ?_, rfl, by simp⟩
  · rintro ⟨s, hs, _⟩
    rw [updates_cons, e] at hs
    exact absurd hs (by simp)
  · show (StreamOutIntensityExt.new (Double.fin (0 : ℝ))).UpdateValue (Double.fin 0) = _
    exact e1
  · show ((StreamOutIntensityExt.new (Double.fin (0 : ℝ))).UpdateValue
      (Double.fin 0)).UpdateValue (Double.fin 1) = _
    rw [e1, e2]

/-- Where the estimator is right: for every first moment and every list of
moments passed to `UpdateValue` in which no call divides by zero, the estimator
is constructed with `start_moment = last_moment = |first|` and `value = 0`, and
for each call of the run the state before and the state after the call
are defined, `start_moment` is still the one of construction, `last_moment` is
at least `start_moment` and at least its value before the call, and `value` is
not negative. -/
theorem estimator_invariant {K : Type} [LinearOrderedField K] (first : K) (ms : List K)
    (h : (StreamOutIntensity.new first).updates ms ≠ none) :
    ((StreamOutIntensity.new first).start_moment = |first| ∧
        (StreamOutIntensity.new first).last_moment = |first| ∧
        (StreamOutIntensity.new first).value = 0) ∧
      ∀ k : Nat, k < ms.length →
        ∃ s s', (StreamOutIntensity.new first).updates (ms.take k) = some s ∧
          (StreamOutIntensity.new first).updates (ms.take (k + 1)) = some s' ∧
          s'.start_moment = |first| ∧ s'.start_moment ≤ s'.last_moment ∧
          s.last_moment ≤ s'.last_moment ∧ 0 ≤ s'.value :=
  ⟨⟨rfl, rfl, rfl⟩, fun k hk =>
    updates_preserves ms (StreamOutIntensity.new first) (le_refl _) (le_refl _) h k hk⟩

theorem estimator_invariant_witness :
    (StreamOutIntensity.new (1 : ℚ)).updates [3, -2, 1, -4] ≠ none ∧
      ∃ s s', (StreamOutIntensity.new (1 : ℚ)).updates ([3, -2, 1, -4].take 3) = some s ∧
          (StreamOutIntensity.new (1 : ℚ)).updates ([3, -2, 1, -4].take (3 + 1)) = some s' ∧
          s'.start_moment = |(1 : ℚ)| ∧ s'.start_moment ≤ s'.last_moment ∧
          s.last_moment ≤ s'.last_moment ∧ 0 ≤ s'.value :=
  have h : (StreamOutIntensity.new (1 : ℚ)).updates [3, -2, 1, -4] ≠ none := by
    norm_num [StreamOutIntensity.updates, StreamOutIntensity.UpdateValue, StreamOutIntensity.new,
      abs_of_neg]
    exact Option.some_ne_none _
  ⟨h, (estimator_invariant (1 : ℚ) [3, -2, 1, -4] h).2 3 (by decide)⟩

/-! ## Claims about the constructors -/

/-- C11: for every `lambda`, `mu` and `start`, the intensity stored by the
constructor of `PoissonPointProcess` (of `Device`) is `|lambda|` (`|mu|`) when
the argument is not `0` and `1` when it is `0`, so it is positive; the current
point is `|start|`; the device starts with its moment of release at `0`; and
`PoissonPointProcess(0, 0)` stores the intensity `1` and the current point
`0`. -/
theorem constructor_rate {K : Type} [LinearOrderedField K] (lambda mu start : K) :
    (PoissonPointProcess.new lambda start).intensity = (if lambda = 0 then 1 else |lambda|) ∧
      (Device.new mu).intensity = (if mu = 0 then 1 else |mu|) ∧
      0 < (PoissonPointProcess.new lambda start).intensity ∧
      0 < (Device.new mu).intensity ∧
      (PoissonPointProcess.new lambda start).current_point = ((|start| : K) : WithTop K) ∧
      (Device.new mu).moment_of_release = ((0 : K) : WithTop K) ∧
      (PoissonPointProcess.new (0 : K) 0).intensity = 1 ∧
      (PoissonPointProcess.new (0 : K) 0).current_point = ((0 : K) : WithTop K) := by
  refine ⟨parameter_eq lambda, parameter_eq mu, parameter_pos lambda, parameter_pos mu,
    rfl, rfl, ?_, ?_⟩
  · show (if |(0 : K)| = 0 then (1 : K) else |(0 : K)|) = 1
    simp
  · show (((|(0 : K)| : K)) : WithTop K) = ((0 : K) : WithTop K)
    simp

/-- C12 as stated fails: the parameter `-3` is `≤ 0`, and both constructors
store the intensity `3`, not `1`. -/
theorem negative_rate_not_one :
    (-3 : ℝ) ≤ 0 ∧ (PoissonPointProcess.new (-3 : ℝ) 0).intensity = 3 ∧
      (Device.new (-3 : ℝ)).intensity = 3 ∧
      ¬ ((PoissonPointProcess.new (-3 : ℝ) 0).intensity = 1 ∧
        (Device.new (-3 : ℝ)).intensity = 1) := by
  have e1 : (PoissonPointProcess.new (-3 : ℝ) 0).intensity = 3 := by
    show (if |(-3 : ℝ)| = 0 then (1 : ℝ) else |(-3 : ℝ)|) = 3
    norm_num [abs_of_neg]
  have e2 : (Device.new (-3 : ℝ)).intensity = 3 := by
    show (if |(-3 : ℝ)| = 0 then (1 : ℝ) else |(-3 : ℝ)|) = 3
    norm_num [abs_of_neg]
  refine ⟨by norm_num, e1, e2, ?_⟩
  rw [e1]
  norm_num

/-- C12, amended: for every parameter of the arrival or of the service
intensity that is `≤ 0`, the constructor stores `1` when the parameter is `0`
and the absolute value `-parameter` when the parameter is negative; the
intensity stored is positive in both cases. -/
theorem nonpositive_rate {K : Type} [LinearOrderedField K] (parameter start : K)
    (h : parameter ≤ 0) :
    (PoissonPointProcess.new parameter start).intensity
        = (if parameter = 0 then 1 else -parameter) ∧
      (Device.new parameter).intensity = (if parameter = 0 then 1 else -parameter) ∧
      0 < (PoissonPointProcess.new parameter start).intensity ∧
      0 < (Device.new parameter).intensity := by
  have e : (if |parameter| = 0 then (1 : K) else |parameter|)
      = (if parameter = 0 then 1 else -parameter) := by
    rw [parameter_eq, abs_of_nonpos h]
  exact ⟨e, e, parameter_pos parameter, parameter_pos parameter⟩

theorem nonpositive_rate_witness :
    (-2 : ℚ) ≤ 0 ∧
      (PoissonPointProcess.new (-2 : ℚ) 0).intensity = (if (-2 : ℚ) = 0 then 1 else -(-2 : ℚ)) :=
  ⟨by norm_num, (nonpositive_rate (-2 : ℚ) 0 (by norm_num)).1⟩

/-! ## The register as a linear congruential generator -/

theorem toInt32_add_toInt32 (a c : Int) : toInt32 (toInt32 a + c) = toInt32 (a + c) := by
  unfold toInt32
  omega

theorem rndRegister_eq_lcgModulo (y : Int) : rndRegister y = lcgModulo y := by
  have h := toInt32_range (toInt32 (y * 843314861) + 453816693)
  have e := toInt32_add_toInt32 (y * 843314861) 453816693
  show (if toInt32 (toInt32 (y * 843314861) + 453816693) < 0 then _ else _) = _
  rw [e] at h ⊢
  have hw : lcgModulo y = (y * 843314861 + 453816693) % 2 ^ 31 := by
    unfold lcgModulo
    rw [mul_comm]
  rw [hw]
  generalize y * 843314861 + 453816693 = w at h ⊢
  by_cases hz : toInt32 w < 0
  · rw [if_pos hz, add_limit_of_neg _ h.1 hz]
    unfold toInt32 at hz ⊢
    omega
  · rw [if_neg hz]
    unfold toInt32 at hz ⊢
    omega

/-- C17: for every register `y`, in particular for `0 ≤ y < 2 ^ 31`, the
register after one call of `rnd()` is `(843314861 * y + 453816693) mod 2 ^ 31`
computed over the unbounded integers; from the register `0` the first register
is `453816693` and the first draw is `453816693 / 2147483647`. -/
theorem register_is_lcg (y : Int) :
    (rnd ℝ y).2 = lcgModulo y ∧ (rnd ℝ y).2 = (843314861 * y + 453816693) % 2 ^ 31 ∧
      (rnd ℝ 0).2 = 453816693 ∧ (rnd ℝ 0).1 = 453816693 / 2147483647 := by
  have e0 : rndRegister 0 = 453816693 := by decide
  refine ⟨rndRegister_eq_lcgModulo y, rndRegister_eq_lcgModulo y, e0, ?_⟩
  rw [rnd_fst, e0]
  norm_num

/-! ## Claims about the edge cases of the arithmetic -/

/-- C15, the program at the register `1093556503`: the draw made inside `esv`
is `0`, not a positive number; `esv` takes the logarithm of it and returns
`+∞`. -/
theorem esv_draws_zero :
    IsInt32 1093556503 ∧ (esv Real.log 2 1093556503).2 = 0 ∧
      (esv Real.log 2 1093556503).1 = ⊤ ∧ ¬ (0 < (rnd ℝ 1093556503).1) := by
  have e : rndRegister 1093556503 = 0 := by decide
  have u0 : (rnd ℝ 1093556503).1 = 0 := (rnd_fst_eq_zero_iff ℝ _).mpr e
  refine ⟨by decide, ?_, esv_fst_of_zero _ _ _ u0, ?_⟩
  · rw [esv_snd, e]
  · rw [u0]
    exact lt_irrefl 0

/-- When the logarithm is taken at `0`: for every rate and every register, the
draw made inside `esv` is not negative, and it is positive exactly when the
updated register is not `0`; when the updated register is `0` the logarithm is
taken at `0` and `esv` returns `+∞`, and otherwise `esv` returns a real
number. -/
theorem esv_draw_sign (rate : ℝ) (y : Int) :
    0 ≤ (rnd ℝ y).1 ∧ (0 < (rnd ℝ y).1 ↔ (esv Real.log rate y).2 ≠ 0) ∧
      ((esv Real.log rate y).2 = 0 → (esv Real.log rate y).1 = ⊤) ∧
      ((esv Real.log rate y).2 ≠ 0 → ∃ v : ℝ, (esv Real.log rate y).1 = (v : WithTop ℝ)) := by
  rw [esv_snd]
  refine ⟨rnd_fst_nonneg ℝ y, rnd_fst_pos_iff ℝ y, ?_, ?_⟩
  · intro h
    exact esv_fst_of_zero _ _ _ ((rnd_fst_eq_zero_iff ℝ y).mpr h)
  · intro h
    exact ⟨_, esv_fst_of_ne_zero _ _ _ (fun h0 => h ((rnd_fst_eq_zero_iff ℝ y).mp h0))⟩

theorem updates_start_le_last {K : Type} [LinearOrderedField K] (ms : List K)
    (s0 s : StreamOutIntensity K) (hl : s0.start_moment ≤ s0.last_moment)
    (hv : 0 ≤ s0.value) (h : s0.updates ms = some s) :
    s.start_moment ≤ s.last_moment ∧ 0 ≤ s.value := by
  induction ms generalizing s0 with
  | nil =>
    have e : s0 = s := Option.some.inj h
    subst e
    exact ⟨hl, hv⟩
  | cons m ms ih =>
    rw [updates_cons] at h
    cases e1 : s0.UpdateValue m with
    | none =>
      rw [e1] at h
      exact absurd h (by simp)
    | some s1 =>
      rw [e1] at h
      have p1 := UpdateValue_preserves s0 s1 m hl hv e1
      exact ih s1 p1.2.1 p1.2.2.2 h

/-- The call of `UpdateValue` divides by zero exactly when the no-op branch is
not taken and the absolute value of the moment is `start_moment`. -/
theorem UpdateValue_eq_none_iff {K : Type} [LinearOrderedField K]
    (s : StreamOutIntensity K) (m : K) :
    s.UpdateValue m = none ↔ ¬ (|m| < s.last_moment) ∧ |m| - s.start_moment = 0 := by
  unfold StreamOutIntensity.UpdateValue
  simp only
  by_cases h1 : |m| < s.last_moment
  · rw [if_pos h1]
    simp [h1]
  · rw [if_neg h1]
    by_cases h2 : |m| - s.start_moment = 0
    · rw [if_pos h2]
      simp [h1, h2]
    · rw [if_neg h2]
      simp [h2]

/-- The estimator over finite numbers and the one over doubles agree: an
update that is defined is the same update on doubles, and an update that
divides by zero stores an infinity (the numerator is not zero) or a NaN (it is
zero) on doubles. -/
theorem UpdateValue_toExt {K : Type} [LinearOrderedField K] (s : StreamOutIntensity K)
    (m : K) :
    (∀ s', s.UpdateValue m = some s' → s.toExt.UpdateValue (Double.fin m) = s'.toExt) ∧
      (s.UpdateValue m = none →
        (s.toExt.UpdateValue (Double.fin m)).value
          = Double.signedInf (s.value * (s.last_moment - s.start_moment) + 1)) := by
  have hext : s.toExt.UpdateValue (Double.fin m)
      = if decide (|m| < s.last_moment) = true then s.toExt
        else ⟨Double.fin s.start_moment, Double.fin |m|,
          if |m| - s.start_moment = 0 then
            Double.signedInf (s.value * (s.last_moment - s.start_moment) + 1)
          else Double.fin ((s.value * (s.last_moment - s.start_moment) + 1)
            / (|m| - s.start_moment))⟩ := rfl
  rw [hext]
  unfold StreamOutIntensity.UpdateValue
  simp only
  by_cases h1 : |m| < s.last_moment
  · have d1 : decide (|m| < s.last_moment) = true := decide_eq_true h1
    simp only [if_pos h1, d1, if_true]
    refine ⟨?_, ?_⟩
    · intro s' h
      rw [← Option.some.inj h]
    · intro h
      exact absurd h (by simp)
  · have d1 : ¬ (decide (|m| < s.last_moment) = true) := by simpa using h1
    by_cases h2 : |m| - s.start_moment = 0
    · simp only [if_neg h1, if_neg d1, if_pos h2]
      refine ⟨?_, fun _ => trivial⟩
      intro s' h
      exact absurd h (by simp)
    · simp only [if_neg h1, if_neg d1, if_neg h2]
      refine ⟨?_, ?_⟩
      · intro s' h
        rw [← Option.some.inj h]
        rfl
      · intro h
        exact absurd h (by simp)

/-- C16, the program on the estimator constructed at `2` and updated at `2`: the
no-op branch is not taken (`2 < 2` is false), the divisor
`last_moment - start_moment` is `2 - 2 = 0`, and the update divides `1` by it.
On doubles the value stored is `+∞`, and after one more update, at `3`, it is a
NaN. -/
theorem zero_elapsed_time_divides :
    ¬ (|(2 : ℝ)| < (StreamOutIntensity.new (2 : ℝ)).last_moment) ∧
      |(2 : ℝ)| - (StreamOutIntensity.new (2 : ℝ)).start_moment = 0 ∧
      (StreamOutIntensity.new (2 : ℝ)).UpdateValue 2 = none ∧
      ((StreamOutIntensityExt.new (Double.fin (2 : ℝ))).UpdateValue (Double.fin 2)).GetValue
        = Double.pinf ∧
      (((StreamOutIntensityExt.new (Double.fin (2 : ℝ))).UpdateValue
          (Double.fin 2)).UpdateValue (Double.fin 3)).GetValue = Double.nan := by
  have h1 : ¬ (|(2 : ℝ)| < (StreamOutIntensity.new (2 : ℝ)).last_moment) := by
    show ¬ (|(2 : ℝ)| < |(2 : ℝ)|)
    exact lt_irrefl _
  have h2 : |(2 : ℝ)| - (StreamOutIntensity.new (2 : ℝ)).start_moment = 0 := by
    show |(2 : ℝ)| - |(2 : ℝ)| = 0
    exact sub_self _
  have e1 : (StreamOutIntensityExt.new (Double.fin (2 : ℝ))).UpdateValue (Double.fin 2)
      = ⟨Double.fin 2, Double.fin 2, Double.pinf⟩ := by
    simp [StreamOutIntensityExt.new, StreamOutIntensityExt.UpdateValue, Double.abs, Double.lt,
      Double.sub, Double.mul, Double.add, Double.div, Double.signedInf]
  refine ⟨h1, h2, (UpdateValue_eq_none_iff _ _).mpr ⟨h1, h2⟩, ?_, ?_⟩
  · rw [e1]
    rfl
  · rw [e1]
    simp [StreamOutIntensityExt.UpdateValue, StreamOutIntensityExt.GetValue, Double.abs,
      Double.lt, Double.sub, Double.mul, Double.add, Double.div, Double.signedInf]
    norm_num

/-- When `UpdateValue` divides by zero: for every state of the estimator reached
from construction and every moment for which `UpdateValue` does not take the
no-op branch, the divisor `last_moment - start_moment` of the update is not
negative, and it is zero exactly when the absolute value of the moment equals
`start_moment` (the state then still has `last_moment = start_moment`); in
that case, and only in that case, the update divides by zero. -/
theorem divisor_zero_iff {K : Type} [LinearOrderedField K] (first : K) (ms : List K)
    (s : StreamOutIntensity K) (m : K)
    (hs : (StreamOutIntensity.new first).updates ms = some s)
    (hm : ¬ (|m| < s.last_moment)) :
    0 ≤ |m| - s.start_moment ∧
      (|m| - s.start_moment = 0 ↔ |m| = s.start_moment) ∧
      (|m| = s.start_moment → s.last_moment = s.start_moment) ∧
      (s.UpdateValue m = none ↔ |m| = s.start_moment) := by
  have hl := (updates_start_le_last ms (StreamOutIntensity.new first) s
    (le_refl _) (le_refl _) hs).1
  have hge : s.last_moment ≤ |m| := not_lt.mp hm
  refine ⟨by linarith, sub_eq_zero, ?_, ?_⟩
  · intro h
    rw [h] at hge
    exact le_antisymm hge hl
  · rw [UpdateValue_eq_none_iff, sub_eq_zero]
    exact ⟨fun h => h.2, fun h => ⟨hm, h⟩⟩

/-! ## Claims about the driver -/

theorem firstPoint_fst (lambda : ℝ) (y : Int) :
    (firstPoint Real.log lambda y).1
      = ((0 : ℝ) : WithTop ℝ) + (esv Real.log (if |lambda| = 0 then 1 else |lambda|) y).1 := by
  show ((|(0 : ℝ)| : ℝ) : WithTop ℝ) + _ = _
  rw [abs_zero]
  rfl

theorem firstPoint_snd {K : Type} [LinearOrderedField K] (ln : K → K) (lambda : K) (y : Int) :
    (firstPoint ln lambda y).2.2 = (rnd K y).2 := rfl

theorem firstPoint_nonneg (lambda : ℝ) (y : Int) :
    ((0 : ℝ) : WithTop ℝ) ≤ (firstPoint Real.log lambda y).1 := by
  rw [firstPoint_fst]
  exact le_add_of_nonneg_right (esv_fst_nonneg _ y)

theorem first_moment_accepted (lambda mu : ℝ) (y : Int) :
    ((Device.new mu).ProceedRequest Real.log (firstPoint Real.log lambda y).1
      (firstPoint Real.log lambda y).2.2).1 = true := by
  unfold Device.ProceedRequest
  have h : (firstPoint Real.log lambda y).1 ≥ (Device.new mu).moment_of_release :=
    firstPoint_nonneg lambda y
  rw [if_pos h]

/-- C14: for every `lambda`, `mu` and register, the first moment produced by the
process started at `0` is at least `0`, and the first call of `ProceedRequest`
on the freshly constructed device, whose moment of release is `0`, with that
moment returns `true`. -/
theorem first_request_accepted (lambda mu : ℝ) (y : Int) :
    (Device.new mu).moment_of_release = ((0 : ℝ) : WithTop ℝ) ∧
      ((0 : ℝ) : WithTop ℝ) ≤ (firstPoint Real.log lambda y).1 ∧
      ((Device.new mu).ProceedRequest Real.log (firstPoint Real.log lambda y).1
        (firstPoint Real.log lambda y).2.2).1 = true := by
  exact ⟨rfl, firstPoint_nonneg lambda y, first_moment_accepted lambda mu y⟩

/-- C13: in `main`, whenever the first moment is at least `T` the run ends with
`return 1`, after exactly one draw, with no estimator constructed and nothing
printed, whatever the bound on the iterations; this is the case for `T = 0`
with every `lambda`, `mu` and register; and a run that prints a line and ends
with `return 0` has its first moment before `T`. -/
theorem degenerate_run (lambda mu T : ℝ) (y : Int) (fuel : Nat) :
    ((firstPoint Real.log lambda y).1 ≥ (T : WithTop ℝ) →
        main Real.log lambda mu T y fuel = Exit.status1 (rnd ℝ y).2) ∧
      main Real.log lambda mu 0 y fuel = Exit.status1 (rnd ℝ y).2 ∧
      (∀ (v : Double ℝ) (yf : Int),
        main Real.log lambda mu T y fuel = Exit.status0 lambda mu T v yf →
          (firstPoint Real.log lambda y).1 < (T : WithTop ℝ)) := by
  have key : ∀ T0 : ℝ, (firstPoint Real.log lambda y).1 ≥ (T0 : WithTop ℝ) →
      main Real.log lambda mu T0 y fuel = Exit.status1 (rnd ℝ y).2 := by
    intro T0 h
    unfold main
    simp only
    rw [if_pos h, firstPoint_snd]
  refine ⟨key T, key 0 (firstPoint_nonneg lambda y), ?_⟩
  intro v yf h
  by_contra hlt
  rw [key T (not_lt.mp hlt)] at h
  exact absurd h (by simp)

theorem degenerate_run_witness :
    (firstPoint Real.log 2 0).1 ≥ ((0 : ℝ) : WithTop ℝ) ∧
      main Real.log 2 5 0 0 7 = Exit.status1 (rnd ℝ 0).2 :=
  ⟨firstPoint_nonneg 2 0, (degenerate_run 2 5 0 0 7).1 (firstPoint_nonneg 2 0)⟩

/-! ## The driver: the estimator follows the device -/

theorem Double.abs_ofTop {K : Type} [LinearOrderedField K] (a : WithTop K)
    (h : ((0 : K) : WithTop K) ≤ a) : (Double.ofTop a).abs = Double.ofTop a := by
  cases a with
  | top => rfl
  | coe x =>
    have hx : 0 ≤ x := WithTop.coe_le_coe.mp h
    show Double.fin |x| = Double.fin x
    rw [abs_of_nonneg hx]

theorem Double.lt_ofTop {K : Type} [LinearOrderedField K] (a b : WithTop K) :
    (Double.ofTop a).lt (Double.ofTop b) = decide (a < b) := by
  cases a with
  | top =>
    cases b with
    | top => simp [Double.ofTop, Double.lt]
    | coe y => simp [Double.ofTop, Double.lt]
  | coe x =>
    cases b with
    | top => simp [Double.ofTop, Double.lt, WithTop.coe_lt_top]
    | coe y => simp [Double.ofTop, Double.lt, WithTop.coe_lt_coe]

/-- The moment of release after a call of `ProceedRequest` that returns `true`
is at least the moment of the request, which is at least the moment of release
before the call. -/
theorem ProceedRequest_accepted (d : Device ℝ) (moment : WithTop ℝ) (y : Int)
    (h : (d.ProceedRequest Real.log moment y).1 = true) :
    d.moment_of_release ≤ moment ∧
      moment ≤ (d.ProceedRequest Real.log moment y).2.1.moment_of_release := by
  unfold Device.ProceedRequest at h ⊢
  by_cases hm : moment ≥ d.moment_of_release
  · rw [if_pos hm]
    exact ⟨hm, le_add_of_nonneg_right (esv_fst_nonneg d.intensity y)⟩
  · rw [if_neg hm] at h
    exact absurd h (by simp)

theorem ProceedRequest_rejected {K : Type} [LinearOrderedField K] (ln : K → K)
    (d : Device K) (moment : WithTop K) (y : Int)
    (h : (d.ProceedRequest ln moment y).1 = false) :
    d.ProceedRequest ln moment y = (false, d, y) := by
  unfold Device.ProceedRequest at h ⊢
  by_cases hm : moment ≥ d.moment_of_release
  · rw [if_pos hm] at h
    exact absurd h (by simp)
  · rw [if_neg hm]

/-- The update of the estimator at a moment of release that is not earlier than
its `last_moment` is not the no-op. -/
theorem UpdateValue_ofTop {K : Type} [LinearOrderedField K] (e : StreamOutIntensityExt K)
    (R R' : WithTop K) (hl : e.last_moment = Double.ofTop R) (h0 : ((0 : K) : WithTop K) ≤ R)
    (h : R ≤ R') :
    (Double.ofTop R').abs.lt e.last_moment = false ∧
      e.UpdateValue (Double.ofTop R') =
        ⟨e.start_moment, Double.ofTop R',
          ((e.value.mul (e.last_moment.sub e.start_moment)).add (Double.fin 1)).div
            ((Double.ofTop R').sub e.start_moment)⟩ := by
  have habs : (Double.ofTop R').abs = Double.ofTop R' := Double.abs_ofTop R' (le_trans h0 h)
  have hlt : (Double.ofTop R').abs.lt e.last_moment = false := by
    rw [habs, hl, Double.lt_ofTop]
    exact decide_eq_false (not_lt.mpr h)
  refine ⟨hlt, ?_⟩
  unfold StreamOutIntensityExt.UpdateValue
  simp only
  rw [hlt, habs]
  rfl

theorem enterLoop_device (lambda mu : ℝ) (y : Int) :
    (enterLoop Real.log lambda mu y).device
      = ((Device.new mu).ProceedRequest Real.log (firstPoint Real.log lambda y).1
          (firstPoint Real.log lambda y).2.2).2.1 := rfl

theorem enterLoop_release_nonneg (lambda mu : ℝ) (y : Int) :
    ((0 : ℝ) : WithTop ℝ) ≤ (enterLoop Real.log lambda mu y).device.moment_of_release := by
  rw [enterLoop_device]
  have h := (first_moment_accepted lambda mu y)
  exact le_trans (firstPoint_nonneg lambda y)
    (ProceedRequest_accepted (Device.new mu) _ _ h).2

theorem enterLoop_estimator (lambda mu : ℝ) (y : Int) :
    (enterLoop Real.log lambda mu y).request_out_intensity
      = ⟨Double.ofTop (enterLoop Real.log lambda mu y).device.moment_of_release,
          Double.ofTop (enterLoop Real.log lambda mu y).device.moment_of_release,
          Double.fin 0⟩ := by
  show StreamOutIntensityExt.new
    (Double.ofTop (enterLoop Real.log lambda mu y).device.moment_of_release) = _
  unfold StreamOutIntensityExt.new
  rw [Double.abs_ofTop _ (enterLoop_release_nonneg lambda mu y)]

theorem loopBody_device {K : Type} [LinearOrderedField K] (ln : K → K) (s : Simulation K) :
    (loopBody ln s).device = (s.device.ProceedRequest ln s.moment s.y).2.1 := rfl

theorem loopBody_estimator {K : Type} [LinearOrderedField K] (ln : K → K)
    (s : Simulation K) :
    (loopBody ln s).request_out_intensity =
      if s.accepts ln then
        s.request_out_intensity.UpdateValue
          (Double.ofTop (s.device.ProceedRequest ln s.moment s.y).2.1.moment_of_release)
      else s.request_out_intensity := rfl

/-- What the loop of `main` maintains: the moment of release is not negative and
the `last_moment` of the estimator is the moment of release of the device. -/
theorem iterations_follow (lambda mu : ℝ) (y : Int) (n : Nat) :
    ((0 : ℝ) : WithTop ℝ) ≤ (iterations Real.log lambda mu y n).device.moment_of_release ∧
      (iterations Real.log lambda mu y n).request_out_intensity.last_moment
        = Double.ofTop (iterations Real.log lambda mu y n).device.moment_of_release := by
  induction n with
  | zero =>
    refine ⟨enterLoop_release_nonneg lambda mu y, ?_⟩
    show (enterLoop Real.log lambda mu y).request_out_intensity.last_moment = _
    rw [enterLoop_estimator]
    rfl
  | succ n ih =>
    show _ ≤ (loopBody Real.log (iterations Real.log lambda mu y n)).device.moment_of_release ∧
      (loopBody Real.log (iterations Real.log lambda mu y n)).request_out_intensity.last_moment
        = Double.ofTop
          (loopBody Real.log (iterations Real.log lambda mu y n)).device.moment_of_release
    generalize iterations Real.log lambda mu y n = s at ih ⊢
    rw [loopBody_device, loopBody_estimator]
    cases hacc : s.accepts Real.log with
    | true =>
      have ha := ProceedRequest_accepted s.device s.moment s.y hacc
      have hle := le_trans ha.1 ha.2
      refine ⟨le_trans ih.1 hle, ?_⟩
      rw [if_pos rfl, (UpdateValue_ofTop _ _ _ ih.2 ih.1 hle).2]
    | false =>
      rw [ProceedRequest_rejected Real.log s.device s.moment s.y hacc]
      simp only [Bool.false_eq_true, if_false]
      exact ih

/-- C18: for every `lambda`, `mu` and register, after any number `n` of
iterations of the loop of `main` (so at the start and at the end of every
iteration of every run that reaches the loop, whatever `T` is), the
`last_moment` of the estimator is the moment of release of the device; and
when the request of the next iteration is accepted, the moment handed to
`UpdateValue` is at least `last_moment`, so the test of the no-op branch is
false and `UpdateValue` sets `last_moment` to the new moment of release. -/
theorem loop_invariant (lambda mu : ℝ) (y : Int) (n : Nat) :
    (iterations Real.log lambda mu y n).request_out_intensity.last_moment
        = Double.ofTop (iterations Real.log lambda mu y n).device.GetMomentOfRelease ∧
      ((iterations Real.log lambda mu y n).accepts Real.log = true →
        (iterations Real.log lambda mu y n).device.GetMomentOfRelease
            ≤ (iterations Real.log lambda mu y (n + 1)).device.GetMomentOfRelease ∧
          (Double.ofTop (iterations Real.log lambda mu y (n + 1)).device.GetMomentOfRelease).abs.lt
              (iterations Real.log lambda mu y n).request_out_intensity.last_moment = false ∧
          (iterations Real.log lambda mu y (n + 1)).request_out_intensity.last_moment
            = Double.ofTop (iterations Real.log lambda mu y (n + 1)).device.GetMomentOfRelease) := by
  have h := iterations_follow lambda mu y n
  refine ⟨h.2, ?_⟩
  intro hacc
  have ha := ProceedRequest_accepted _ _ _ hacc
  have hle := le_trans ha.1 ha.2
  exact ⟨hle, (UpdateValue_ofTop _ _ _ h.2 h.1 hle).1, (iterations_follow lambda mu y (n + 1)).2⟩

/-- The draw `1` gives the service time `0`. -/
theorem esv_of_draw_one (lambda : ℝ) (y : Int) (h : rndRegister y = 2147483647) :
    (esv Real.log lambda y).1 = ((0 : ℝ) : WithTop ℝ) := by
  have u1 : (rnd ℝ y).1 = 1 := by
    rw [rnd_fst, h]
    norm_num
  rw [esv_fst_of_ne_zero _ _ _ (by rw [u1]; norm_num), u1]
  simp

theorem enterLoop_release (lambda mu : ℝ) (y : Int) :
    (enterLoop Real.log lambda mu y).device.moment_of_release
      = (firstPoint Real.log lambda y).1
        + (esv Real.log (Device.new mu).intensity (firstPoint Real.log lambda y).2.2).1 := by
  rw [enterLoop_device]
  unfold Device.ProceedRequest
  have h : (firstPoint Real.log lambda y).1 ≥ (Device.new mu).moment_of_release :=
    firstPoint_nonneg lambda y
  rw [if_pos h]

theorem enterLoop_moment_ge (lambda mu : ℝ) (y : Int) :
    (firstPoint Real.log lambda y).1 ≤ (enterLoop Real.log lambda mu y).moment :=
  (GetNextPoint_mono (firstPoint Real.log lambda y).2.1 _).2

/-- From the register `490417425` the second draw, the one of the first service
time, is `1`: the device is free again at the first moment, and the second
request is accepted. -/
theorem enterLoop_accepts_example :
    (iterations Real.log 2 5 490417425 0).accepts Real.log = true := by
  have hr : (enterLoop Real.log 2 5 490417425).device.moment_of_release
      = (firstPoint Real.log 2 490417425).1 := by
    rw [enterLoop_release, firstPoint_snd, rnd_snd, esv_of_draw_one _ _ (by decide)]
    simp
  show ((enterLoop Real.log 2 5 490417425).device.ProceedRequest Real.log
    (enterLoop Real.log 2 5 490417425).moment (enterLoop Real.log 2 5 490417425).y).1 = true
  unfold Device.ProceedRequest
  have h : (enterLoop Real.log 2 5 490417425).moment
      ≥ (enterLoop Real.log 2 5 490417425).device.moment_of_release := by
    rw [hr]
    exact enterLoop_moment_ge 2 5 490417425
  rw [if_pos h]

theorem loop_invariant_witness :
    (iterations Real.log 2 5 490417425 0).accepts Real.log = true ∧
      (iterations Real.log 2 5 490417425 (0 + 1)).request_out_intensity.last_moment
        = Double.ofTop (iterations Real.log 2 5 490417425 (0 + 1)).device.GetMomentOfRelease :=
  ⟨enterLoop_accepts_example, ((loop_invariant 2 5 490417425 0).2 enterLoop_accepts_example).2.2⟩

/-! ## The driver: what is reported -/

theorem iterations_eq_iterate {K : Type} [LinearOrderedField K] (ln : K → K)
    (lambda mu : K) (y : Int) (n : Nat) :
    iterations ln lambda mu y n = (loopBody ln)^[n] (enterLoop ln lambda mu y) := by
  induction n with
  | zero => rfl
  | succ n ih =>
    rw [Function.iterate_succ_apply', ← ih]
    rfl

/-- With enough fuel the loop returns the variables reached after the number of
iterations at which its test first fails. -/
theorem mainLoop_of_exit {K : Type} [LinearOrderedField K] (ln : K → K) (T : K) (n : Nat)
    (s0 : Simulation K)
    (h2 : ∀ j, j < n → ((loopBody ln)^[j] s0).moment < (T : WithTop K))
    (h3 : ¬ (((loopBody ln)^[n] s0).moment < (T : WithTop K)))
    (fuel : Nat) (hf : n ≤ fuel) :
    mainLoop ln T fuel s0 = some ((loopBody ln)^[n] s0) := by
  induction n generalizing s0 fuel with
  | zero =>
    have h3b : ¬ (s0.moment < (T : WithTop K)) := h3
    cases fuel with
    | zero =>
      show (if s0.moment < (T : WithTop K) then none else some s0) = some s0
      rw [if_neg h3b]
    | succ f =>
      show (if s0.moment < (T : WithTop K) then mainLoop ln T f (loopBody ln s0) else some s0)
        = some s0
      rw [if_neg h3b]
  | succ n ih =>
    have h0 : s0.moment < (T : WithTop K) := h2 0 (Nat.succ_pos n)
    cases fuel with
    | zero => exact absurd hf (by omega)
    | succ f =>
      show (if s0.moment < (T : WithTop K) then mainLoop ln T f (loopBody ln s0) else some s0)
        = some ((loopBody ln)^[n + 1] s0)
      rw [if_pos h0, Function.iterate_succ_apply]
      apply ih (loopBody ln s0)
      · intro j hj
        have := h2 (j + 1) (by omega)
        rw [Function.iterate_succ_apply] at this
        exact this
      · rw [Function.iterate_succ_apply] at h3
        exact h3
      · omega

/-- The numerator of one update: from the value `c / (r - r0)` (or `0` when
`c = 0`) the program recovers the count `c` and increments it. -/
theorem Double.count_step (v : Double ℝ) (c : Nat) (r r0 : ℝ)
    (h0 : c = 0 → v = Double.fin 0)
    (h1 : 0 < c → v = (Double.fin (c : ℝ)).div ((Double.fin r).sub (Double.fin r0)) ∧ r0 < r) :
    (v.mul ((Double.fin r).sub (Double.fin r0))).add (Double.fin 1)
      = Double.fin ((c + 1 : Nat) : ℝ) := by
  cases c with
  | zero =>
    rw [h0 rfl]
    show Double.fin (0 * (r - r0) + 1) = _
    norm_num
  | succ c =>
    obtain ⟨hv, hr⟩ := h1 (Nat.succ_pos c)
    have hne : r - r0 ≠ 0 := by
      have : 0 < r - r0 := by linarith
      exact ne_of_gt this
    rw [hv]
    show ((if r - r0 = 0 then Double.signedInf ((c + 1 : Nat) : ℝ)
      else Double.fin (((c + 1 : Nat) : ℝ) / (r - r0))).mul (Double.fin (r - r0))).add
        (Double.fin 1) = _
    rw [if_neg hne]
    show Double.fin (((c + 1 : Nat) : ℝ) / (r - r0) * (r - r0) + 1) = _
    rw [div_mul_cancel₀ _ hne]
    push_cast
    rfl

theorem iterations_device_succ {K : Type} [LinearOrderedField K] (ln : K → K)
    (lambda mu : K) (y : Int) (j : Nat) :
    (iterations ln lambda mu y (j + 1)).device
      = ((iterations ln lambda mu y j).device.ProceedRequest ln
          (iterations ln lambda mu y j).moment (iterations ln lambda mu y j).y).2.1 := rfl

/-- What the loop of `main` maintains about the value of the estimator, as long
as every moment offered is before `T` and every accepted request leads to a
moment of release later than the first one: with `c` the number of requests
accepted so far in the loop, the value is `0` and the moment of release is the
first one when `c = 0`, and the value is `c` divided by the time elapsed from
the first moment of release to the current one when `c > 0`. -/
theorem iterations_value (lambda mu T : ℝ) (y : Int) (n : Nat)
    (h2 : ∀ j, j < n → (iterations Real.log lambda mu y j).moment < (T : WithTop ℝ))
    (h4 : ∀ j, j < n → (iterations Real.log lambda mu y j).accepts Real.log = true →
      (enterLoop Real.log lambda mu y).device.moment_of_release
        < (iterations Real.log lambda mu y (j + 1)).device.moment_of_release)
    (j : Nat) (hj : j ≤ n) :
    (iterations Real.log lambda mu y j).request_out_intensity.start_moment
        = Double.ofTop (enterLoop Real.log lambda mu y).device.moment_of_release ∧
      (acceptedCount Real.log lambda mu y j = 0 →
        (iterations Real.log lambda mu y j).request_out_intensity.value = Double.fin 0 ∧
          (iterations Real.log lambda mu y j).device.moment_of_release
            = (enterLoop Real.log lambda mu y).device.moment_of_release) ∧
      (0 < acceptedCount Real.log lambda mu y j →
        (iterations Real.log lambda mu y j).request_out_intensity.value
            = (Double.fin (acceptedCount Real.log lambda mu y j : ℝ)).div
              ((Double.ofTop (iterations Real.log lambda mu y j).device.moment_of_release).sub
                (Double.ofTop (enterLoop Real.log lambda mu y).device.moment_of_release)) ∧
          (enterLoop Real.log lambda mu y).device.moment_of_release
            < (iterations Real.log lambda mu y j).device.moment_of_release) := by
  induction j with
  | zero =>
    refine ⟨?_, ?_, ?_⟩
    · show (enterLoop Real.log lambda mu y).request_out_intensity.start_moment = _
      rw [enterLoop_estimator]
    · intro _
      constructor
      · show (enterLoop Real.log lambda mu y).request_out_intensity.value = _
        rw [enterLoop_estimator]
      · rfl
    · intro h
      exact absurd h (lt_irrefl 0)
  | succ j ih =>
    obtain ⟨ihs, ih0, ih1⟩ := ih (by omega)
    have hfol := iterations_follow lambda mu y j
    have hmom := h2 j (by omega)
    have hrel := h4 j (by omega)
    have hcount : acceptedCount Real.log lambda mu y (j + 1)
        = acceptedCount Real.log lambda mu y j
          + (if (iterations Real.log lambda mu y j).accepts Real.log then 1 else 0) := rfl
    have hest : (iterations Real.log lambda mu y (j + 1)).request_out_intensity
        = (loopBody Real.log (iterations Real.log lambda mu y j)).request_out_intensity := rfl
    rw [hcount, hest, loopBody_estimator]
    rw [iterations_device_succ] at hrel ⊢
    generalize acceptedCount Real.log lambda mu y j = c at ih0 ih1 ⊢
    generalize iterations Real.log lambda mu y j = s at ihs ih0 ih1 hfol hmom hrel ⊢
    generalize (enterLoop Real.log lambda mu y).device.moment_of_release = R0
      at ihs ih0 ih1 hrel ⊢
    cases hacc : s.accepts Real.log with
    | false =>
      rw [ProceedRequest_rejected Real.log s.device s.moment s.y hacc]
      simp only [Bool.false_eq_true, if_false, Nat.add_zero]
      exact ⟨ihs, ih0, ih1⟩
    | true =>
      have ha := ProceedRequest_accepted s.device s.moment s.y hacc
      have hle := le_trans ha.1 ha.2
      have hR' := hrel hacc
      rw [if_pos rfl, (UpdateValue_ofTop _ _ _ hfol.2 hfol.1 hle).2]
      have hfin : s.device.moment_of_release < ⊤ :=
        lt_of_le_of_lt ha.1 (lt_trans hmom (WithTop.coe_lt_top T))
      obtain ⟨r, hr⟩ := WithTop.ne_top_iff_exists.mp (ne_of_lt hfin)
      have hR0le : R0 ≤ s.device.moment_of_release := by
        rcases Nat.eq_zero_or_pos c with hc | hc
        · rw [(ih0 hc).2]
        · exact le_of_lt (ih1 hc).2
      have hfin0 : R0 < ⊤ := lt_of_le_of_lt hR0le hfin
      obtain ⟨r0, hr0⟩ := WithTop.ne_top_iff_exists.mp (ne_of_lt hfin0)
      subst hr0
      have e1 : Double.ofTop s.device.moment_of_release = Double.fin r := by
        rw [← hr]
        rfl
      have e2 : Double.ofTop (r0 : WithTop ℝ) = Double.fin r0 := rfl
      have hnum := Double.count_step s.request_out_intensity.value c r r0
        (fun hc => (ih0 hc).1)
        (fun hc => by
          obtain ⟨a, b⟩ := ih1 hc
          rw [e1, e2] at a
          rw [← hr] at b
          exact ⟨a, WithTop.coe_lt_coe.mp b⟩)
      refine ⟨ihs, ?_, ?_⟩
      · intro hc
        exact absurd hc (by simp)
      · intro _
        refine ⟨?_, hR'⟩
        show (((s.request_out_intensity.value.mul
          (s.request_out_intensity.last_moment.sub s.request_out_intensity.start_moment)).add
            (Double.fin 1)).div _) = _
        rw [hfol.2, ihs, e1, e2, hnum]
        simp

/-- C19: consider a run of `main` that reaches its loop (the first moment is
before `T`), leaves the loop after `n` iterations, and in which every request
accepted in the loop leads to a moment of release later than the first moment
of release.  With at least `n` iterations allowed, `main` prints the value of
the estimator after these `n` iterations and returns `0`; with `k` the number
of requests accepted in the loop, the value printed is `0` when `k = 0`, and
it is `k` divided by the difference of the last and the first moment of
release when `k > 0` (this quotient is `0` when the last moment of release is
`+∞`, and it is the quotient of real numbers `k / (b - a)` when the two moments
are the real numbers `b` and `a`). -/
theorem reported_rate (lambda mu T : ℝ) (y : Int) (n : Nat)
    (h1 : (firstPoint Real.log lambda y).1 < (T : WithTop ℝ))
    (h2 : ∀ j, j < n → (iterations Real.log lambda mu y j).moment < (T : WithTop ℝ))
    (h3 : ¬ ((iterations Real.log lambda mu y n).moment < (T : WithTop ℝ)))
    (h4 : ∀ j, j < n → (iterations Real.log lambda mu y j).accepts Real.log = true →
      (enterLoop Real.log lambda mu y).device.GetMomentOfRelease
        < (iterations Real.log lambda mu y (j + 1)).device.GetMomentOfRelease)
    (fuel : Nat) (hf : n ≤ fuel) :
    main Real.log lambda mu T y fuel
        = Exit.status0 lambda mu T
          (iterations Real.log lambda mu y n).request_out_intensity.GetValue
          (iterations Real.log lambda mu y n).y ∧
      (acceptedCount Real.log lambda mu y n = 0 →
        (iterations Real.log lambda mu y n).request_out_intensity.GetValue = Double.fin 0) ∧
      (0 < acceptedCount Real.log lambda mu y n →
        (iterations Real.log lambda mu y n).request_out_intensity.GetValue
          = (Double.fin (acceptedCount Real.log lambda mu y n : ℝ)).div
            ((Double.ofTop (iterations Real.log lambda mu y n).device.GetMomentOfRelease).sub
              (Double.ofTop (enterLoop Real.log lambda mu y).device.GetMomentOfRelease))) ∧
      (∀ a b : ℝ, 0 < acceptedCount Real.log lambda mu y n →
        (enterLoop Real.log lambda mu y).device.GetMomentOfRelease = (a : WithTop ℝ) →
        (iterations Real.log lambda mu y n).device.GetMomentOfRelease = (b : WithTop ℝ) →
        a < b ∧ (iterations Real.log lambda mu y n).request_out_intensity.GetValue
          = Double.fin ((acceptedCount Real.log lambda mu y n : ℝ) / (b - a))) := by
  have hv := iterations_value lambda mu T y n h2 h4 n (le_refl n)
  refine ⟨?_, fun hc => (hv.2.1 hc).1, fun hc => (hv.2.2 hc).1, ?_⟩
  · unfold main
    simp only
    rw [if_neg (not_le.mpr h1)]
    have hloop := mainLoop_of_exit Real.log T n (enterLoop Real.log lambda mu y)
      (fun j hj => by rw [← iterations_eq_iterate]; exact h2 j hj)
      (by rw [← iterations_eq_iterate]; exact h3) fuel hf
    rw [hloop, ← iterations_eq_iterate]
  · intro a b hc ha hb
    obtain ⟨hval, hlt⟩ := hv.2.2 hc
    have ha2 : (enterLoop Real.log lambda mu y).device.moment_of_release = (a : WithTop ℝ) := ha
    have hb2 : (iterations Real.log lambda mu y n).device.moment_of_release
        = (b : WithTop ℝ) := hb
    rw [ha2, hb2] at hlt hval
    have hab : a < b := WithTop.coe_lt_coe.mp hlt
    refine ⟨hab, ?_⟩
    show (iterations Real.log lambda mu y n).request_out_intensity.value = _
    rw [hval]
    have hne : b - a ≠ 0 := ne_of_gt (by linarith)
    show (if b - a = 0 then Double.signedInf _ else Double.fin _) = _
    rw [if_neg hne]

/-! ### A run with one request accepted in the loop -/

/-- Bounds on a finite value of `esv`, from `1 - u ≤ -log u ≤ 1 / u - 1`. -/
theorem esv_bounds (rate : ℝ) (y : Int) (h0 : rndRegister y ≠ 0) :
    ∃ v : ℝ, (esv Real.log rate y).1 = (v : WithTop ℝ) ∧
      (1 - (rnd ℝ y).1) / (if |rate| = 0 then 1 else |rate|) ≤ v ∧
      v ≤ ((rnd ℝ y).1⁻¹ - 1) / (if |rate| = 0 then 1 else |rate|) ∧
      (rndRegister y ≠ 2147483647 → 0 < v) := by
  have hu0 : (rnd ℝ y).1 ≠ 0 := fun h => h0 ((rnd_fst_eq_zero_iff ℝ y).mp h)
  have hpos : 0 < (rnd ℝ y).1 := (rnd_fst_pos_iff ℝ y).mpr h0
  have hp := parameter_pos rate
  refine ⟨_, esv_fst_of_ne_zero _ _ _ hu0, ?_, ?_, ?_⟩
  · rw [div_le_div_iff_of_pos_right hp]
    have := Real.log_le_sub_one_of_pos hpos
    linarith
  · rw [div_le_div_iff_of_pos_right hp]
    have := Real.one_sub_inv_le_log_of_pos hpos
    linarith
  · intro h1
    exact neg_log_div_pos rate y hu0 ((rnd_fst_lt_one_iff ℝ y).mpr h1)

theorem ProceedRequest_of_ge {K : Type} [LinearOrderedField K] (ln : K → K) (d : Device K)
    (moment : WithTop K) (y : Int) (h : moment ≥ d.moment_of_release) :
    d.ProceedRequest ln moment y
      = (true, ⟨d.intensity, moment + (esv ln d.intensity y).1⟩, rndRegister y) := by
  unfold Device.ProceedRequest
  rw [if_pos h]
  rfl

theorem enterLoop_moment (lambda mu : ℝ) (y : Int) :
    (enterLoop Real.log lambda mu y).moment
        = (firstPoint Real.log lambda y).1
          + (esv Real.log (PoissonPointProcess.new lambda 0).intensity
              (rndRegister (rndRegister y))).1 ∧
      (enterLoop Real.log lambda mu y).process.current_point
        = (enterLoop Real.log lambda mu y).moment ∧
      (enterLoop Real.log lambda mu y).process.intensity
        = (PoissonPointProcess.new lambda 0).intensity ∧
      (enterLoop Real.log lambda mu y).device.intensity = (Device.new mu).intensity ∧
      (enterLoop Real.log lambda mu y).y = rndRegister (rndRegister (rndRegister y)) := by
  have h : (firstPoint Real.log lambda y).1 ≥ (Device.new mu).moment_of_release :=
    firstPoint_nonneg lambda y
  have e := ProceedRequest_of_ge Real.log (Device.new mu) _ (firstPoint Real.log lambda y).2.2 h
  unfold enterLoop
  simp only
  rw [e]
  exact ⟨rfl, rfl, rfl, rfl, rfl⟩

theorem loopBody_of_ge (s : Simulation ℝ) (h : s.moment ≥ s.device.moment_of_release) :
    s.accepts Real.log = true ∧
      (loopBody Real.log s).device.moment_of_release
        = s.moment + (esv Real.log s.device.intensity s.y).1 ∧
      (loopBody Real.log s).moment
        = s.process.current_point
          + (esv Real.log s.process.intensity (rndRegister s.y)).1 := by
  have e := ProceedRequest_of_ge Real.log s.device s.moment s.y h
  refine ⟨?_, ?_, ?_⟩
  · show (s.device.ProceedRequest Real.log s.moment s.y).1 = true
    rw [e]
  · rw [loopBody_device, e]
  · unfold loopBody
    simp only
    rw [e]
    rfl

theorem reported_rate_witness :
    (firstPoint Real.log 1 1691915755).1 < ((100 : ℝ) : WithTop ℝ) ∧
      (iterations Real.log 1 1 1691915755 0).moment < ((100 : ℝ) : WithTop ℝ) ∧
      (iterations Real.log 1 1 1691915755 0).accepts Real.log = true ∧
      ¬ ((iterations Real.log 1 1 1691915755 1).moment < ((100 : ℝ) : WithTop ℝ)) ∧
      acceptedCount Real.log 1 1 1691915755 1 = 1 ∧
      main Real.log 1 1 100 1691915755 1
        = Exit.status0 1 1 100
          (iterations Real.log 1 1 1691915755 1).request_out_intensity.GetValue
          (iterations Real.log 1 1 1691915755 1).y ∧
      (iterations Real.log 1 1 1691915755 1).request_out_intensity.GetValue
        = (Double.fin ((1 : Nat) : ℝ)).div
          ((Double.ofTop (iterations Real.log 1 1 1691915755 1).device.GetMomentOfRelease).sub
            (Double.ofTop (enterLoop Real.log 1 1 1691915755).device.GetMomentOfRelease)) := by
  have r1 : rndRegister 1691915755 = 66769732 := by decide
  have r2 : rndRegister 66769732 = 1700580969 := by decide
  have r3 : rndRegister 1700580969 = 1352143978 := by decide
  have r4 : rndRegister 1352143978 = 1093556503 := by decide
  have r5 : rndRegister 1093556503 = 0 := by decide
  have p1 : (if |(1 : ℝ)| = 0 then (1 : ℝ) else |(1 : ℝ)|) = 1 := by simp
  have i1 : (PoissonPointProcess.new (1 : ℝ) 0).intensity = 1 := p1
  have i2 : (Device.new (1 : ℝ)).intensity = 1 := p1
  -- the four finite draws
  obtain ⟨A1, eA1, _, uA1, _⟩ := esv_bounds 1 1691915755 (by rw [r1]; decide)
  obtain ⟨S1, eS1, _, uS1, _⟩ := esv_bounds 1 66769732 (by rw [r2]; decide)
  obtain ⟨A2, eA2, lA2, uA2, _⟩ := esv_bounds 1 1700580969 (by rw [r3]; decide)
  obtain ⟨S2, eS2, _, _, pS2⟩ := esv_bounds 1 1352143978 (by rw [r4]; decide)
  have hS2 : 0 < S2 := pS2 (by rw [r4]; decide)
  rw [p1, rnd_fst, r1] at uA1
  rw [p1, rnd_fst, r2] at uS1
  rw [p1, rnd_fst, r3] at lA2 uA2
  norm_num at uA1 uS1 lA2 uA2
  -- the variables at the entry of the loop
  have hF : (firstPoint Real.log 1 1691915755).1 = ((A1 : ℝ) : WithTop ℝ) := by
    rw [firstPoint_fst, p1, eA1]
    simp
  have hR0 : (enterLoop Real.log 1 1 1691915755).device.moment_of_release
      = ((A1 + S1 : ℝ) : WithTop ℝ) := by
    rw [enterLoop_release, hF, firstPoint_snd, rnd_snd, r1, i2, eS1]
    rfl
  obtain ⟨hm, hcp, hpi, hdi, hy⟩ := enterLoop_moment 1 1 1691915755
  rw [hF, r1, r2, i1, eA2] at hm
  rw [r1, r2, r3] at hy
  have hM : (enterLoop Real.log 1 1 1691915755).moment = ((A1 + A2 : ℝ) : WithTop ℝ) := by
    rw [hm]
    rfl
  have hge : (enterLoop Real.log 1 1 1691915755).moment
      ≥ (enterLoop Real.log 1 1 1691915755).device.moment_of_release := by
    rw [hM, hR0]
    apply WithTop.coe_le_coe.mpr
    linarith
  -- the variables after the iteration
  obtain ⟨hacc, hR1, hM1⟩ := loopBody_of_ge (enterLoop Real.log 1 1 1691915755) hge
  rw [hM, hdi, i2, hy, eS2] at hR1
  rw [hcp, hpi, i1, hy, r4, esv_fst_of_zero _ _ _ ((rnd_fst_eq_zero_iff ℝ _).mpr r5),
    WithTop.add_top] at hM1
  have h1 : (firstPoint Real.log 1 1691915755).1 < ((100 : ℝ) : WithTop ℝ) := by
    rw [hF]
    apply WithTop.coe_lt_coe.mpr
    linarith
  have h2 : (iterations Real.log 1 1 1691915755 0).moment < ((100 : ℝ) : WithTop ℝ) := by
    show (enterLoop Real.log 1 1 1691915755).moment < _
    rw [hM]
    apply WithTop.coe_lt_coe.mpr
    linarith
  have h3 : ¬ ((iterations Real.log 1 1 1691915755 1).moment < ((100 : ℝ) : WithTop ℝ)) := by
    show ¬ ((loopBody Real.log (enterLoop Real.log 1 1 1691915755)).moment < _)
    rw [hM1]
    exact not_top_lt
  have h4 : (enterLoop Real.log 1 1 1691915755).device.GetMomentOfRelease
      < (iterations Real.log 1 1 1691915755 (0 + 1)).device.GetMomentOfRelease := by
    show (enterLoop Real.log 1 1 1691915755).device.moment_of_release
      < (loopBody Real.log (enterLoop Real.log 1 1 1691915755)).device.moment_of_release
    rw [hR0, hR1, ← WithTop.coe_add]
    apply WithTop.coe_lt_coe.mpr
    linarith
  have hk : acceptedCount Real.log 1 1 1691915755 1 = 1 := by
    show 0 + (if (enterLoop Real.log 1 1 1691915755).accepts Real.log then 1 else 0) = 1
    rw [hacc]
    rfl
  have hmain := reported_rate 1 1 100 1691915755 1 h1
    (fun j hj => by
      have e : j = 0 := by omega
      subst e
      exact h2)
    h3
    (fun j hj _ => by
      have e : j = 0 := by omega
      subst e
      exact h4)
    1 (le_refl 1)
  refine ⟨h1, h2, hacc, h3, hk, hmain.1, ?_⟩
  have hv := hmain.2.2.1 (by rw [hk]; exact Nat.one_pos)
  rw [hk] at hv
  exact hv

end Lab5
